import Mathlib

/-!
# Exercise.cpp: per-symbol trade statistics

A shallow embedding of `src/Exercise.cpp`.

* A C++ `std::string` is a `List Char`, one `Char` per `char` of the string, compared by
  its code as an `unsigned char` is.
* `uint64_t` values are `Nat` reduced modulo `2^64`; `int64_t` and `int` values are `Int`
  reduced into the two's-complement range by `to_int64` and `to_int32`.  Signed overflow is
  modelled as wrap-around, which is what the additions and the multiplication execute.
* Integer division by zero and `INT64_MIN / -1` have no result: `avg_price` is an `Option`.
* `std::unordered_map<string, SymbolStats>` is an association list with distinct keys.  Its
  iteration order is unspecified in C++; the report is sorted by key, so the order in which
  the list keeps its entries cannot be observed (`sort_unique`).
* The three `cerr` diagnostics and the silent success are recorded as an `Outcome`.
-/

namespace Exercise

deriving instance DecidableEq for Except

/-! ## Machine integers -/

/-- Conversion of an integer to `int64_t` (two's complement, modulo `2^64`). -/
def to_int64 (x : Int) : Int := (x + 2 ^ 63) % 2 ^ 64 - 2 ^ 63

/-- Conversion of an integer to `int` (32-bit two's complement, modulo `2^32`). -/
def to_int32 (x : Int) : Int := (x + 2 ^ 31) % 2 ^ 32 - 2 ^ 31

/-- Subtraction of two `uint64_t` values: `a - b` modulo `2^64`. -/
def sub_u64 (a b : Nat) : Nat := (a + (2 ^ 64 - b % 2 ^ 64)) % 2 ^ 64

/-! ## Standard-library functions used by the program -/

/-- The exceptions `std::stoull` and `std::stoi` throw. -/
inductive ParseError where
  | invalid_argument
  | out_of_range
  deriving DecidableEq, Repr

/-- C locale `isspace`: space, and the control characters `\t \n \v \f \r`. -/
def isspace (c : Char) : Bool := c.toNat == 32 || (9 ≤ c.toNat && c.toNat ≤ 13)

/-- C locale `isdigit`. -/
def isdigit (c : Char) : Bool := 48 ≤ c.toNat && c.toNat ≤ 57

/-- Leading white space is discarded by the `strto*` family. -/
def skip_space : List Char → List Char
  | [] => []
  | c :: cs => if isspace c then skip_space cs else c :: cs

/-- The values of the longest run of decimal digits at the head of the text. -/
def take_digits : List Char → List Nat
  | [] => []
  | c :: cs => if isdigit c then (c.toNat - 48) :: take_digits cs else []

/-- The number a digit sequence denotes in base 10. -/
def digits_value (ds : List Nat) : Nat := ds.foldl (fun acc d => 10 * acc + d) 0

/-- The subject sequence `strtol` and `strtoull` recognise in base 10: white space, an
optional sign, then digits.  Returns whether the sign was `-` and the digits; what follows
the digits is ignored.  No digits means no conversion. -/
def scan_integer (s : List Char) : Bool × List Nat :=
  match skip_space s with
  | [] => (false, [])
  | c :: cs =>
    if c = '-' then (true, take_digits cs)
    else if c = '+' then (false, take_digits cs)
    else (false, take_digits (c :: cs))

/-- The call `std::stoull(str)`: `strtoull` in base 10; `invalid_argument` when nothing was
converted, `out_of_range` when the magnitude exceeds `ULLONG_MAX`; a minus sign negates the
magnitude in the unsigned type. -/
def stoull (s : List Char) : Except ParseError Nat :=
  let r := scan_integer s
  if r.2 = [] then .error .invalid_argument
  else if 2 ^ 64 - 1 < digits_value r.2 then .error .out_of_range
  else .ok (if r.1 then (2 ^ 64 - digits_value r.2) % 2 ^ 64 else digits_value r.2)

/-- The call `std::stoi(str)`: `strtol` in base 10; `invalid_argument` when nothing was
converted, `out_of_range` when the value does not fit an `int`. -/
def stoi (s : List Char) : Except ParseError Int :=
  let r := scan_integer s
  let v : Int := if r.1 then -(digits_value r.2 : Int) else (digits_value r.2 : Int)
  if r.2 = [] then .error .invalid_argument
  else if v < -(2 ^ 31) ∨ 2 ^ 31 - 1 < v then .error .out_of_range
  else .ok v

/-- The input stream of an `istringstream`: the characters not yet read and `eofbit`. -/
structure IStream where
  buf : List Char
  eofbit : Bool
  deriving DecidableEq, Repr

/-- Extraction loop of `getline(ss, part, ',')`: characters are moved to the part until the
delimiter (consumed, not stored) or the end of the buffer (sets `eofbit`). -/
def read_until_comma : List Char → List Char × IStream
  | [] => ([], ⟨[], true⟩)
  | c :: cs =>
    if c = ',' then ([], ⟨cs, false⟩)
    else ((c :: (read_until_comma cs).1), (read_until_comma cs).2)

/-- The call `getline(ss, part, ',')` with its truth value as a loop condition: `none` when
the call sets `failbit`, which it does when the stream is no longer good on entry or
when no character at all, delimiter included, could be extracted. -/
def getline (ss : IStream) : Option (List Char × IStream) :=
  if ss.eofbit then none
  else match ss.buf with
    | [] => none
    | c :: cs => some (read_until_comma (c :: cs))

/-- The loop `while (getline(ss, part, ',')) parts.push_back(part);`, at most `fuel` turns. -/
def split_loop : Nat → IStream → List (List Char) → List (List Char)
  | 0, _, parts => parts
  | fuel + 1, ss, parts =>
    match getline ss with
    | none => parts
    | some (part, ss') => split_loop fuel ss' (parts ++ [part])

/-- Lines 24-31 of `process_line`: the vector `parts` once the loop has ended.  Every turn
but the last consumes a character, so `line.length + 1` turns always reach the end. -/
def split_parts (line : List Char) : List (List Char) :=
  split_loop (line.length + 1) ⟨line, false⟩ []

/-- Comparison `a < b` of two `std::string`s: lexicographic on the characters compared as
unsigned values, a proper initial segment being smaller. -/
def str_lt : List Char → List Char → Bool
  | _, [] => false
  | [], _ :: _ => true
  | a :: as, b :: bs =>
    if a.toNat < b.toNat then true
    else if b.toNat < a.toNat then false
    else str_lt as bs

/-! ## The program -/

/-- Statistics kept for each symbol, with the default member initialisers of the struct. -/
structure SymbolStats where
  last_timestamp : Nat := 0
  max_gap : Nat := 0
  total_volume : Int := 0
  weighted_sum : Int := 0
  max_price : Int := 0
  deriving DecidableEq, Repr, Inhabited

/-- The map from symbol to statistics. -/
abbrev Store := List (List Char × SymbolStats)

/-- The four values `process_line` parses out of an accepted line. -/
structure TradeRecord where
  timestamp : Nat
  symbol : List Char
  quantity : Int
  price : Int
  deriving DecidableEq, Repr

/-- How a call of `process_line` ends: silently after the update, with the warning of
line 35, or in one of the two `catch` clauses. -/
inductive Outcome where
  | applied
  | invalid_format
  | invalid_numeric
  | out_of_range
  deriving DecidableEq, Repr

/-- The `catch` clause an exception lands in. -/
def Outcome.caught : ParseError → Outcome
  | .invalid_argument => .invalid_numeric
  | .out_of_range => .out_of_range

/-- Lookup of a key in the map. -/
def find (symbols : Store) (symbol : List Char) : Option SymbolStats :=
  match symbols with
  | [] => none
  | (k, v) :: rest => if k = symbol then some v else find rest symbol

/-- The reference `symbols[symbol]` followed by writes through it: the entry of `symbol` is
replaced by `f` of it, and a missing entry is first created value-initialised. -/
def modify_entry (symbols : Store) (symbol : List Char)
    (f : SymbolStats → SymbolStats) : Store :=
  match symbols with
  | [] => [(symbol, f {})]
  | (k, v) :: rest =>
    if k = symbol then (k, f v) :: rest else (k, v) :: modify_entry rest symbol f

/-- Lines 49-59 of `process_line`, on the entry the reference `stats` designates. -/
def update_stats (timestamp : Nat) (quantity price : Int) (stats : SymbolStats) :
    SymbolStats :=
  { last_timestamp := timestamp
    max_gap :=
      if stats.last_timestamp ≠ 0 then
        max stats.max_gap (sub_u64 timestamp stats.last_timestamp)
      else stats.max_gap
    total_volume := to_int64 (stats.total_volume + quantity)
    weighted_sum := to_int64 (stats.weighted_sum + to_int32 (quantity * price))
    max_price := max stats.max_price price }

/-- Lines 24-44 of `process_line`: the split, the column check and the three conversions
in program order.  The first conversion that throws decides the `catch` clause. -/
def parse_fields (line : List Char) : Except Outcome TradeRecord :=
  match split_parts line with
  | [p0, p1, p2, p3] =>
    match stoull p0 with
    | .error e => .error (Outcome.caught e)
    | .ok timestamp =>
      match stoi p2 with
      | .error e => .error (Outcome.caught e)
      | .ok quantity =>
        match stoi p3 with
        | .error e => .error (Outcome.caught e)
        | .ok price => .ok ⟨timestamp, p1, quantity, price⟩
  | _ => .error .invalid_format

/-- Lines 46-59 of `process_line`, reached when no conversion threw. -/
def apply_record (symbols : Store) (r : TradeRecord) : Store :=
  modify_entry symbols r.symbol (update_stats r.timestamp r.quantity r.price)

/-- The function `process_line`: the map after the call and how the call ended. -/
def process_line (line : List Char) (symbols : Store) : Outcome × Store :=
  match parse_fields line with
  | .error o => (o, symbols)
  | .ok r => (.applied, apply_record symbols r)

/-- Lines 85-88 of `main`: every line of the input goes through `process_line`. -/
def process_lines (lines : List (List Char)) (symbols : Store) : Store :=
  lines.foldl (fun m line => (process_line line m).2) symbols

/-- Insertion of one entry into a list ordered by the comparator of lines 99-101. -/
def insert_entry (x : List Char × SymbolStats) :
    List (List Char × SymbolStats) → List (List Char × SymbolStats)
  | [] => [x]
  | y :: ys => if str_lt x.1 y.1 then x :: y :: ys else y :: insert_entry x ys

/-- Lines 90-101 of `main`: the entries of the map copied to a vector and sorted with the
comparator `a.first < b.first`. -/
def sorted_symbols (symbols : Store) : List (List Char × SymbolStats) :=
  symbols.foldr insert_entry []

/-- One line of the output file. -/
structure Row where
  symbol : List Char
  max_gap : Nat
  total_volume : Int
  avg_price : Int
  max_price : Int
  deriving DecidableEq, Repr

/-- Line 112 of `main`: the 64-bit quotient truncated toward zero, converted to `int`.
The division has no result for a zero divisor and for `INT64_MIN / -1`. -/
def avg_price (stats : SymbolStats) : Option Int :=
  if stats.total_volume = 0 then none
  else if stats.weighted_sum = -(2 ^ 63) ∧ stats.total_volume = -1 then none
  else some (to_int32 (Int.tdiv stats.weighted_sum stats.total_volume))

/-- Lines 112-117 of `main`: the row written for one entry. -/
def write_row (e : List Char × SymbolStats) : Option Row :=
  match avg_price e.2 with
  | none => none
  | some avg => some ⟨e.1, e.2.max_gap, e.2.total_volume, avg, e.2.max_price⟩

/-- Lines 110-118 of `main`: the rows in order, as long as every division has a result. -/
def write_rows : List (List Char × SymbolStats) → Option (List Row)
  | [] => some []
  | e :: es =>
    match write_row e with
    | none => none
    | some row =>
      match write_rows es with
      | none => none
      | some rows => some (row :: rows)

/-- The function `main` from the first input line to the last output row. -/
def main (lines : List (List Char)) : Option (List Row) :=
  write_rows (sorted_symbols (process_lines lines []))

/-! ## Vocabulary of the specification -/

/-- The record of a line `process_line` accepts. -/
def accepted (line : List Char) : Option TradeRecord :=
  match parse_fields line with
  | .ok r => some r
  | .error _ => none

/-- The accepted records of an input for one symbol, in input order. -/
def records_of (lines : List (List Char)) (s : List Char) : List TradeRecord :=
  (lines.filterMap accepted).filter (fun r => r.symbol = s)

/-- The update of lines 49-59 for a sequence of records, in order, on one entry. -/
def fold_stats (rs : List TradeRecord) (stats : SymbolStats) : SymbolStats :=
  rs.foldl (fun st r => update_stats r.timestamp r.quantity r.price st) stats

/-- The entry of a symbol after a sequence of its records: untouched when there is no
record, otherwise created on demand and updated record by record. -/
def stats_after (rs : List TradeRecord) (entry : Option SymbolStats) : Option SymbolStats :=
  match rs with
  | [] => entry
  | _ :: _ => some (fold_stats rs (entry.getD {}))

/-- Sum of the quantities of a sequence of records, as an integer. -/
def sum_quantity (rs : List TradeRecord) : Int := (rs.map TradeRecord.quantity).sum

/-- Sum of the products quantity times price of a sequence of records, as an integer. -/
def sum_product (rs : List TradeRecord) : Int :=
  (rs.map (fun r => r.quantity * r.price)).sum

/-- The symbols stored in a map, in the order of its entries. -/
def keys (symbols : Store) : List (List Char) := symbols.map Prod.fst

/-- Entries in strictly ascending order of their keys under `str_lt`. -/
def Ascending (l : List (List Char × SymbolStats)) : Prop :=
  l.Pairwise (fun a b => str_lt a.1 b.1 = true)

/-- Number of commas in a line. -/
def comma_count (line : List Char) : Nat := line.count ','

/-- The parts of a line in closed form: the text between consecutive commas, without a
last part when nothing follows the last comma. -/
def fields : List Char → List (List Char)
  | [] => []
  | c :: cs =>
    if c = ',' then [] :: fields cs
    else match fields cs with
      | [] => [[c]]
      | p :: ps => (c :: p) :: ps

/-- Number of fields of a line as the split loop counts them: one per comma, and one more
when the line is not empty and does not end in a comma. -/
def field_count (line : List Char) : Nat :=
  comma_count line + if line = [] ∨ line.getLast? = some ',' then 0 else 1

/-- A non-empty string of decimal digits. -/
def is_decimal (s : List Char) : Prop := s ≠ [] ∧ ∀ c ∈ s, isdigit c = true

instance (s : List Char) : Decidable (is_decimal s) :=
  inferInstanceAs (Decidable (s ≠ [] ∧ ∀ c ∈ s, isdigit c = true))

/-- The number a string of decimal digits denotes, most significant digit first. -/
def decimal_value (s : List Char) : Nat :=
  Nat.ofDigits 10 ((s.map (fun c => c.toNat - 48)).reverse)

/-- An optional minus sign followed by a non-empty string of decimal digits. -/
def is_signed_decimal : List Char → Prop
  | [] => False
  | c :: cs => if c = '-' then is_decimal cs else is_decimal (c :: cs)

instance : (s : List Char) → Decidable (is_signed_decimal s)
  | [] => inferInstanceAs (Decidable False)
  | c :: cs =>
    inferInstanceAs (Decidable (if c = '-' then is_decimal cs else is_decimal (c :: cs)))

/-- The integer a signed decimal string denotes. -/
def signed_value : List Char → Int
  | [] => 0
  | c :: cs => if c = '-' then -(decimal_value cs : Int) else (decimal_value (c :: cs) : Int)

/-- The lines of an input that are accepted with a given symbol, in input order. -/
def lines_of (lines : List (List Char)) (s : List Char) : List (List Char) :=
  lines.filter (fun line =>
    match accepted line with
    | some r => decide (r.symbol = s)
    | none => false)

theorem to_int64_add_left (a b : Int) : to_int64 (to_int64 a + b) = to_int64 (a + b) := by
  unfold to_int64
  omega

theorem to_int64_of_range (a : Int) (h1 : -(2 ^ 63) ≤ a) (h2 : a < 2 ^ 63) : to_int64 a = a := by
  unfold to_int64
  omega

theorem to_int32_of_range (a : Int) (h1 : -(2 ^ 31) ≤ a) (h2 : a < 2 ^ 31) : to_int32 a = a := by
  unfold to_int32
  omega

/-! ## The map: lemmas -/

theorem find_modify_same (symbols : Store) (s : List Char) (f : SymbolStats → SymbolStats) :
    find (modify_entry symbols s f) s = some (f ((find symbols s).getD {})) := by
  induction symbols with
  | nil => simp [modify_entry, find]
  | cons e rest ih =>
    obtain ⟨k, v⟩ := e
    by_cases h : k = s
    · simp [modify_entry, find, h]
    · simp [modify_entry, find, h, ih]

theorem find_modify_other (symbols : Store) (s t : List Char) (f : SymbolStats → SymbolStats)
    (h : s ≠ t) : find (modify_entry symbols s f) t = find symbols t := by
  induction symbols with
  | nil => simp [modify_entry, find, h]
  | cons e rest ih =>
    obtain ⟨k, v⟩ := e
    by_cases hk : k = s
    · subst hk
      simp [modify_entry, find, h]
    · simp only [modify_entry, find, hk, if_false]
      by_cases ht : k = t
      · simp [ht]
      · simp [ht, ih]

/-! ## One symbol at a time -/

theorem stats_after_cons (r : TradeRecord) (rs : List TradeRecord) (entry : Option SymbolStats) :
    stats_after (r :: rs) entry =
      stats_after rs (some (update_stats r.timestamp r.quantity r.price (entry.getD {}))) := by
  cases rs <;> simp [stats_after, fold_stats]

theorem records_of_cons (line : List Char) (lines : List (List Char)) (s : List Char) :
    records_of (line :: lines) s =
      match accepted line with
      | none => records_of lines s
      | some r => if r.symbol = s then r :: records_of lines s else records_of lines s := by
  unfold records_of
  cases h : accepted line with
  | none => simp [List.filterMap_cons, h]
  | some r =>
    by_cases hs : r.symbol = s
    · simp [List.filterMap_cons, h, hs]
    · simp [List.filterMap_cons, h, hs]

theorem process_line_eq (line : List Char) (symbols : Store) :
    process_line line symbols =
      match accepted line with
      | none => ((process_line line symbols).1, symbols)
      | some r => (Outcome.applied, apply_record symbols r) := by
  unfold process_line accepted
  cases parse_fields line <;> rfl

theorem applied_iff_accepted (line : List Char) (symbols : Store) :
    (process_line line symbols).1 = Outcome.applied ↔ ∃ r, accepted line = some r := by
  unfold process_line accepted
  cases hp : parse_fields line with
  | error o =>
    simp only [reduceCtorEq, exists_false, iff_false]
    intro h
    unfold parse_fields at hp
    split at hp
    · split at hp
      · rename_i e _
        cases e <;> simp [Outcome.caught] at hp <;> simp [← hp] at h
      · split at hp
        · rename_i e _
          cases e <;> simp [Outcome.caught] at hp <;> simp [← hp] at h
        · split at hp
          · rename_i e _
            cases e <;> simp [Outcome.caught] at hp <;> simp [← hp] at h
          · simp at hp
    · simp at hp
      simp [← hp] at h
  | ok r => simp

/-- The entry of every symbol in the final map is the fold of the update over the accepted
records of that symbol alone. -/
theorem find_process_lines (lines : List (List Char)) (symbols : Store) (s : List Char) :
    find (process_lines lines symbols) s = stats_after (records_of lines s) (find symbols s) := by
  induction lines generalizing symbols with
  | nil => simp [process_lines, records_of, stats_after]
  | cons line lines ih =>
    have hstep : process_lines (line :: lines) symbols =
        process_lines lines (process_line line symbols).2 := by
      simp [process_lines]
    rw [hstep, ih, records_of_cons, process_line_eq]
    cases h : accepted line with
    | none => simp
    | some r =>
      by_cases hs : r.symbol = s
      · subst hs
        simp [apply_record, find_modify_same, stats_after_cons]
      · simp [apply_record, find_modify_other _ _ _ _ hs, hs]

theorem fold_stats_total_volume (rs : List TradeRecord) (st : SymbolStats) (h : rs ≠ []) :
    (fold_stats rs st).total_volume =
      to_int64 (st.total_volume + (rs.map TradeRecord.quantity).sum) := by
  induction rs generalizing st with
  | nil => exact absurd rfl h
  | cons r rs ih =>
    by_cases hrs : rs = []
    · subst hrs
      simp [fold_stats, update_stats]
    · have := ih (update_stats r.timestamp r.quantity r.price st) hrs
      simp only [fold_stats, List.foldl_cons] at this ⊢
      rw [this]
      simp only [update_stats, List.map_cons, List.sum_cons]
      rw [to_int64_add_left, add_assoc]

theorem fold_stats_weighted_sum (rs : List TradeRecord) (st : SymbolStats) (h : rs ≠ []) :
    (fold_stats rs st).weighted_sum =
      to_int64 (st.weighted_sum +
        (rs.map (fun r => to_int32 (r.quantity * r.price))).sum) := by
  induction rs generalizing st with
  | nil => exact absurd rfl h
  | cons r rs ih =>
    by_cases hrs : rs = []
    · subst hrs
      simp [fold_stats, update_stats]
    · have := ih (update_stats r.timestamp r.quantity r.price st) hrs
      simp only [fold_stats, List.foldl_cons] at this ⊢
      rw [this]
      simp only [update_stats, List.map_cons, List.sum_cons]
      rw [to_int64_add_left, add_assoc]

theorem sum_to_int32_product (rs : List TradeRecord)
    (h : ∀ r ∈ rs, -(2 ^ 31) ≤ r.quantity * r.price ∧ r.quantity * r.price < 2 ^ 31) :
    (rs.map (fun r => to_int32 (r.quantity * r.price))).sum = sum_product rs := by
  induction rs with
  | nil => rfl
  | cons r rs ih =>
    have hr := h r (List.mem_cons_self _ _)
    have ih2 := ih (fun x hx => h x (List.mem_cons_of_mem _ hx))
    simp only [List.map_cons, List.sum_cons, sum_product] at ih2 ⊢
    rw [ih2, to_int32_of_range _ hr.1 hr.2]

/-! ## Keys of the map -/

theorem keys_modify_entry (symbols : Store) (s : List Char) (f : SymbolStats → SymbolStats) :
    keys (modify_entry symbols s f) = if s ∈ keys symbols then keys symbols else keys symbols ++ [s] := by
  induction symbols with
  | nil => simp [modify_entry, keys]
  | cons e rest ih =>
    obtain ⟨k, v⟩ := e
    by_cases hk : k = s
    · subst hk
      simp [modify_entry, keys]
    · have hk2 : ¬ s = k := fun h => hk h.symm
      simp only [keys] at ih
      simp only [modify_entry, hk, if_false, keys, List.map_cons, List.mem_cons, hk2, false_or, ih]
      split <;> simp

theorem nodup_keys_modify_entry (symbols : Store) (s : List Char) (f : SymbolStats → SymbolStats)
    (h : (keys symbols).Nodup) : (keys (modify_entry symbols s f)).Nodup := by
  rw [keys_modify_entry]
  split
  · exact h
  · rename_i hs
    exact List.Nodup.append h (List.nodup_singleton s) (by simpa using hs)

theorem nodup_keys_process_line (line : List Char) (symbols : Store)
    (h : (keys symbols).Nodup) : (keys (process_line line symbols).2).Nodup := by
  unfold process_line
  cases parse_fields line with
  | error o => exact h
  | ok r => exact nodup_keys_modify_entry _ _ _ h

theorem nodup_keys_process_lines (lines : List (List Char)) (symbols : Store)
    (h : (keys symbols).Nodup) : (keys (process_lines lines symbols)).Nodup := by
  induction lines generalizing symbols with
  | nil => exact h
  | cons line lines ih =>
    simp only [process_lines, List.foldl_cons]
    exact ih _ (nodup_keys_process_line line symbols h)

theorem mem_keys_iff_find (symbols : Store) (s : List Char) :
    s ∈ keys symbols ↔ ∃ st, find symbols s = some st := by
  induction symbols with
  | nil => simp [keys, find]
  | cons e rest ih =>
    obtain ⟨k, v⟩ := e
    by_cases hk : k = s
    · simp [keys, find, hk]
    · have hk2 : ¬ s = k := fun h => hk h.symm
      simp only [keys] at ih
      simp [keys, find, hk, hk2, ih]

theorem mem_of_find (symbols : Store) (s : List Char) (st : SymbolStats)
    (h : find symbols s = some st) : (s, st) ∈ symbols := by
  induction symbols with
  | nil => simp [find] at h
  | cons e rest ih =>
    obtain ⟨k, v⟩ := e
    by_cases hk : k = s
    · simp [find, hk] at h
      simp [hk, h]
    · simp [find, hk] at h
      exact List.mem_cons_of_mem _ (ih h)

theorem find_of_mem (symbols : Store) (s : List Char) (st : SymbolStats)
    (hn : (keys symbols).Nodup) (h : (s, st) ∈ symbols) : find symbols s = some st := by
  induction symbols with
  | nil => simp at h
  | cons e rest ih =>
    obtain ⟨k, v⟩ := e
    simp only [keys, List.map_cons, List.nodup_cons] at hn
    rcases List.mem_cons.1 h with h1 | h1
    · injection h1 with h2 h3
      simp [find, h2, h3]
    · have hk : k ≠ s := by
        intro hks
        apply hn.1
        rw [hks]
        exact List.mem_map_of_mem Prod.fst h1
      simp only [find, hk, if_false]
      exact ih hn.2 h1

/-! ## The order on strings and the sort -/

theorem char_eq_of_toNat (a b : Char) (h : a.toNat = b.toNat) : a = b := by
  rw [← Char.ofNat_toNat a, ← Char.ofNat_toNat b, h]

theorem str_lt_irrefl (a : List Char) : str_lt a a = false := by
  induction a with
  | nil => rfl
  | cons c cs ih => simp [str_lt, ih]

theorem str_lt_trans (a b c : List Char) (h1 : str_lt a b = true) (h2 : str_lt b c = true) :
    str_lt a c = true := by
  induction a generalizing b c with
  | nil =>
    cases c with
    | nil => cases b <;> simp [str_lt] at h2
    | cons z zs => rfl
  | cons x xs ih =>
    cases b with
    | nil => simp [str_lt] at h1
    | cons y ys =>
      cases c with
      | nil => simp [str_lt] at h2
      | cons z zs =>
        simp only [str_lt] at h1 h2 ⊢
        by_cases hxy : x.toNat < y.toNat
        · by_cases hyz : y.toNat < z.toNat
          · have : x.toNat < z.toNat := by omega
            simp [this]
          · by_cases hzy : z.toNat < y.toNat
            · simp [hyz, hzy] at h2
            · have : x.toNat < z.toNat := by omega
              simp [this]
        · by_cases hyx : y.toNat < x.toNat
          · simp [hxy, hyx] at h1
          · simp only [hxy, hyx, if_false] at h1
            by_cases hyz : y.toNat < z.toNat
            · have : x.toNat < z.toNat := by omega
              simp [this]
            · by_cases hzy : z.toNat < y.toNat
              · simp [hyz, hzy] at h2
              · simp only [hyz, hzy, if_false] at h2
                have e1 : ¬ x.toNat < z.toNat := by omega
                have e2 : ¬ z.toNat < x.toNat := by omega
                simp only [e1, e2, if_false]
                exact ih ys zs h1 h2

theorem str_lt_total (a b : List Char) (h : a ≠ b) : str_lt a b = true ∨ str_lt b a = true := by
  induction a generalizing b with
  | nil =>
    cases b with
    | nil => exact absurd rfl h
    | cons y ys => exact Or.inl rfl
  | cons x xs ih =>
    cases b with
    | nil => exact Or.inr rfl
    | cons y ys =>
      simp only [str_lt]
      by_cases hxy : x.toNat < y.toNat
      · simp [hxy]
      · by_cases hyx : y.toNat < x.toNat
        · simp [hyx]
        · have hc : x = y := char_eq_of_toNat x y (by omega)
          subst hc
          have hne : xs ≠ ys := fun e => h (by rw [e])
          simpa [hxy] using ih ys hne

theorem str_lt_asymm (a b : List Char) (h : str_lt a b = true) : str_lt b a = false := by
  cases hb : str_lt b a with
  | false => rfl
  | true =>
    have := str_lt_trans a b a h hb
    rw [str_lt_irrefl] at this
    exact absurd this (by simp)

theorem perm_insert_entry (x : List Char × SymbolStats) (l : List (List Char × SymbolStats)) :
    (insert_entry x l).Perm (x :: l) := by
  induction l with
  | nil => exact List.Perm.refl _
  | cons y ys ih =>
    simp only [insert_entry]
    split
    · exact List.Perm.refl _
    · exact (List.Perm.cons y ih).trans (List.Perm.swap x y ys)

theorem perm_sorted_symbols (symbols : Store) : (sorted_symbols symbols).Perm symbols := by
  induction symbols with
  | nil => exact List.Perm.refl _
  | cons e rest ih =>
    simp only [sorted_symbols, List.foldr_cons]
    exact (perm_insert_entry e _).trans (List.Perm.cons e ih)

theorem ascending_insert_entry (x : List Char × SymbolStats)
    (l : List (List Char × SymbolStats)) (hl : Ascending l) (hx : ∀ y ∈ l, x.1 ≠ y.1) :
    Ascending (insert_entry x l) := by
  induction l with
  | nil => simp [insert_entry, Ascending]
  | cons y ys ih =>
    unfold Ascending at hl ih ⊢
    rw [List.pairwise_cons] at hl
    simp only [insert_entry]
    by_cases hxy : str_lt x.1 y.1 = true
    · simp only [hxy, if_true]
      refine List.pairwise_cons.2 ⟨?_, List.pairwise_cons.2 hl⟩
      intro z hz
      rcases List.mem_cons.1 hz with hz | hz
      · rw [hz]; exact hxy
      · exact str_lt_trans _ _ _ hxy (hl.1 z hz)
    · simp only [hxy]
      refine List.pairwise_cons.2 ⟨?_, ih hl.2 (fun z hz => hx z (List.mem_cons_of_mem _ hz))⟩
      intro z hz
      rcases List.mem_cons.1 ((perm_insert_entry x ys).mem_iff.1 hz) with hz | hz
      · rw [hz]
        rcases str_lt_total x.1 y.1 (hx y (List.mem_cons_self _ _)) with h | h
        · exact absurd h hxy
        · exact h
      · exact hl.1 z hz

theorem ascending_sorted_symbols (symbols : Store) (h : (keys symbols).Nodup) :
    Ascending (sorted_symbols symbols) := by
  induction symbols with
  | nil => simp [sorted_symbols, Ascending]
  | cons e rest ih =>
    simp only [keys, List.map_cons, List.nodup_cons] at h
    simp only [sorted_symbols, List.foldr_cons]
    refine ascending_insert_entry e _ (ih h.2) ?_
    intro y hy heq
    apply h.1
    rw [heq]
    exact List.mem_map_of_mem Prod.fst ((perm_sorted_symbols rest).mem_iff.1 hy)

/-- Any arrangement of the entries of the map that is in ascending key order is the one
`sorted_symbols` computes: the result of the sort depends neither on the algorithm behind
`std::sort` nor on the iteration order of the map. -/
theorem sort_unique (symbols : Store) (h : (keys symbols).Nodup)
    (out : List (List Char × SymbolStats)) (hp : out.Perm symbols) (ha : Ascending out) :
    out = sorted_symbols symbols := by
  haveI : IsAntisymm (List Char × SymbolStats) (fun a b => str_lt a.1 b.1 = true) :=
    ⟨fun a b hab hba => by
      rw [str_lt_asymm _ _ hab] at hba
      exact absurd hba (by simp)⟩
  exact List.eq_of_perm_of_sorted (hp.trans (perm_sorted_symbols symbols).symm) ha
    (ascending_sorted_symbols symbols h)

/-! ## The rows written -/

theorem write_rows_symbols (es : List (List Char × SymbolStats)) (rows : List Row)
    (h : write_rows es = some rows) : rows.map Row.symbol = es.map Prod.fst := by
  induction es generalizing rows with
  | nil =>
    simp only [write_rows, Option.some.injEq] at h
    subst h
    rfl
  | cons e es ih =>
    simp only [write_rows] at h
    cases hr : write_row e with
    | none => simp [hr] at h
    | some row =>
      cases hrs : write_rows es with
      | none => simp [hr, hrs] at h
      | some rest =>
        simp only [hr, hrs, Option.some.injEq] at h
        subst h
        have hsym : row.symbol = e.1 := by
          unfold write_row at hr
          cases ha : avg_price e.2 with
          | none => simp [ha] at hr
          | some avg =>
            simp only [ha, Option.some.injEq] at hr
            rw [← hr]
        simp [hsym, ih rest hrs]

theorem write_rows_mem (es : List (List Char × SymbolStats)) (rows : List Row)
    (h : write_rows es = some rows) (e : List Char × SymbolStats) (he : e ∈ es) :
    ∃ row ∈ rows, write_row e = some row := by
  induction es generalizing rows with
  | nil => simp at he
  | cons x es ih =>
    simp only [write_rows] at h
    cases hr : write_row x with
    | none => simp [hr] at h
    | some row =>
      cases hrs : write_rows es with
      | none => simp [hr, hrs] at h
      | some rest =>
        simp only [hr, hrs, Option.some.injEq] at h
        subst h
        rcases List.mem_cons.1 he with he | he
        · subst he
          exact ⟨row, List.mem_cons_self _ _, hr⟩
        · obtain ⟨r, hr1, hr2⟩ := ih rest hrs he
          exact ⟨r, List.mem_cons_of_mem _ hr1, hr2⟩

theorem write_rows_defined (es : List (List Char × SymbolStats))
    (h : ∀ e ∈ es, avg_price e.2 ≠ none) : ∃ rows, write_rows es = some rows := by
  induction es with
  | nil => exact ⟨[], rfl⟩
  | cons e es ih =>
    obtain ⟨rest, hrest⟩ := ih (fun x hx => h x (List.mem_cons_of_mem _ hx))
    have he := h e (List.mem_cons_self _ _)
    cases ha : avg_price e.2 with
    | none => exact absurd ha he
    | some avg =>
      exact ⟨⟨e.1, e.2.max_gap, e.2.total_volume, avg, e.2.max_price⟩ :: rest, by
        simp [write_rows, write_row, ha, hrest]⟩

/-- Every entry of the final map is written as a row once `main` writes its rows. -/
theorem main_row_of_find (lines : List (List Char)) (rows : List Row) (s : List Char)
    (st : SymbolStats) (hm : main lines = some rows)
    (hf : find (process_lines lines []) s = some st) :
    ∃ row ∈ rows, write_row (s, st) = some row := by
  have h1 : (s, st) ∈ sorted_symbols (process_lines lines []) :=
    (perm_sorted_symbols _).mem_iff.2 (mem_of_find _ _ _ hf)
  exact write_rows_mem _ rows hm (s, st) h1

/-! ## Which symbols have an entry -/

theorem records_of_ne_nil_iff (lines : List (List Char)) (s : List Char) :
    records_of lines s ≠ [] ↔
      ∃ line ∈ lines, ∃ r, accepted line = some r ∧ r.symbol = s := by
  constructor
  · intro h
    obtain ⟨r, hr⟩ := List.exists_mem_of_ne_nil _ h
    unfold records_of at hr
    rw [List.mem_filter, List.mem_filterMap] at hr
    obtain ⟨⟨line, hl, ha⟩, hs⟩ := hr
    exact ⟨line, hl, r, ha, by simpa using hs⟩
  · rintro ⟨line, hl, r, ha, hs⟩
    have hr : r ∈ records_of lines s := by
      unfold records_of
      rw [List.mem_filter, List.mem_filterMap]
      exact ⟨⟨line, hl, ha⟩, by simpa using hs⟩
    exact List.ne_nil_of_mem hr

theorem mem_keys_process_lines (lines : List (List Char)) (s : List Char) :
    s ∈ keys (process_lines lines []) ↔
      ∃ line ∈ lines, ∃ r, accepted line = some r ∧ r.symbol = s := by
  rw [mem_keys_iff_find, find_process_lines, ← records_of_ne_nil_iff]
  cases records_of lines s with
  | nil => simp [stats_after, find]
  | cons r rs => simp [stats_after]

theorem keys_sorted_perm (symbols : Store) : (keys (sorted_symbols symbols)).Perm (keys symbols) :=
  (perm_sorted_symbols symbols).map Prod.fst

theorem keys_sorted_pairwise (symbols : Store) (h : (keys symbols).Nodup) :
    (keys (sorted_symbols symbols)).Pairwise (fun a b => str_lt a b = true) := by
  unfold keys
  rw [List.pairwise_map]
  exact ascending_sorted_symbols symbols h

theorem before_of_pairwise (l : List (List Char)) (x y : List Char)
    (hl : l.Pairwise (fun a b => str_lt a b = true)) (hx : x ∈ l) (hy : y ∈ l)
    (hxy : str_lt x y = true) : ∃ a b c, l = a ++ x :: (b ++ y :: c) := by
  obtain ⟨a, t, rfl⟩ := List.append_of_mem hx
  rw [List.pairwise_append, List.pairwise_cons] at hl
  obtain ⟨_, ⟨_, _⟩, hax⟩ := hl
  rcases List.mem_append.1 hy with hy | hy
  · have := hax y hy x (List.mem_cons_self _ _)
    rw [str_lt_asymm _ _ hxy] at this
    exact absurd this (by simp)
  · rcases List.mem_cons.1 hy with hy | hy
    · rw [hy, str_lt_irrefl] at hxy
      exact absurd hxy (by simp)
    · obtain ⟨b, c, rfl⟩ := List.append_of_mem hy
      exact ⟨a, b, c, rfl⟩

/-! ## The split loop -/

theorem read_until_comma_fields (c : Char) (cs : List Char) :
    fields (c :: cs) =
      (read_until_comma (c :: cs)).1 ::
        (if (read_until_comma (c :: cs)).2.eofbit then []
         else fields (read_until_comma (c :: cs)).2.buf) := by
  induction cs generalizing c with
  | nil =>
    by_cases hc : c = ','
    · simp [fields, read_until_comma, hc]
    · simp [fields, read_until_comma, hc]
  | cons d ds ih =>
    by_cases hc : c = ','
    · simp [fields, read_until_comma, hc]
    · have h := ih d
      rw [fields, if_neg hc, h]
      simp only [read_until_comma, if_neg hc]

theorem read_until_comma_length (cs : List Char) :
    (read_until_comma cs).2.buf.length ≤ cs.length - 1 := by
  induction cs with
  | nil => simp [read_until_comma]
  | cons c cs ih =>
    by_cases hc : c = ','
    · simp [read_until_comma, hc]
    · simp only [read_until_comma, if_neg hc, List.length_cons, Nat.add_sub_cancel]
      omega

theorem split_loop_eof (fuel : Nat) (buf : List Char) (parts : List (List Char)) :
    split_loop fuel ⟨buf, true⟩ parts = parts := by
  cases fuel <;> simp [split_loop, getline]

theorem split_loop_fields (fuel : Nat) (buf : List Char) (parts : List (List Char))
    (h : buf.length < fuel) : split_loop fuel ⟨buf, false⟩ parts = parts ++ fields buf := by
  induction fuel generalizing buf parts with
  | zero => omega
  | succ n ih =>
    cases buf with
    | nil => simp [split_loop, getline, fields]
    | cons c cs =>
      have hlen := read_until_comma_length (c :: cs)
      have hf := read_until_comma_fields c cs
      simp only [split_loop, getline, Bool.false_eq_true, if_false]
      rcases hr : read_until_comma (c :: cs) with ⟨part, ⟨rest, eof⟩⟩
      rw [hr] at hlen hf
      simp only at hlen hf ⊢
      cases eof with
      | true =>
        rw [split_loop_eof, hf]
        simp
      | false =>
        rw [ih rest _ (by simp only [List.length_cons] at h hlen; omega), hf]
        simp

theorem split_parts_eq_fields (line : List Char) : split_parts line = fields line := by
  unfold split_parts
  rw [split_loop_fields _ _ _ (Nat.lt_succ_self _)]
  simp

theorem fields_eq_nil_iff (line : List Char) : fields line = [] ↔ line = [] := by
  cases line with
  | nil => simp [fields]
  | cons c cs =>
    by_cases hc : c = ','
    · simp [fields, hc]
    · simp only [fields, if_neg hc]
      cases fields cs <;> simp

theorem fields_length (line : List Char) : (fields line).length = field_count line := by
  induction line with
  | nil => simp [fields, field_count, comma_count]
  | cons c cs ih =>
    cases cs with
    | nil =>
      by_cases hc : c = ','
      · simp [fields, field_count, comma_count, hc]
      · have hcount : List.count ',' [c] = 0 :=
          List.count_eq_zero.2 (by simpa using fun h => hc h.symm)
        simp [fields, field_count, comma_count, hc, hcount]
    | cons d ds =>
      have hne : fields (d :: ds) ≠ [] := by
        rw [Ne, fields_eq_nil_iff]
        simp
      simp only [field_count, comma_count, reduceCtorEq, false_or, List.getLast?_cons_cons] at ih ⊢
      by_cases hc : c = ','
      · rw [fields, if_pos hc, List.length_cons, ih, hc]
        simp only [List.count_cons_self]
        omega
      · rw [fields, if_neg hc]
        have hcount : List.count ',' (c :: d :: ds) = List.count ',' (d :: ds) :=
          List.count_cons_of_ne (fun h => hc h.symm) _
        rw [hcount, ← ih]
        cases hfd : fields (d :: ds) with
        | nil => exact absurd hfd hne
        | cons p ps => simp

theorem fields_append_comma (f rest : List Char) (hf : ',' ∉ f) :
    fields (f ++ ',' :: rest) = f :: fields rest := by
  induction f with
  | nil => simp [fields]
  | cons c cs ih =>
    have hc : c ≠ ',' := fun h => hf (by simp [h])
    have hcs : ',' ∉ cs := fun h => hf (List.mem_cons_of_mem _ h)
    rw [List.cons_append, fields, if_neg hc, ih hcs]

theorem fields_single (f : List Char) (hf : ',' ∉ f) (hne : f ≠ []) : fields f = [f] := by
  induction f with
  | nil => exact absurd rfl hne
  | cons c cs ih =>
    have hc : c ≠ ',' := fun h => hf (by simp [h])
    have hcs : ',' ∉ cs := fun h => hf (List.mem_cons_of_mem _ h)
    rw [fields, if_neg hc]
    cases cs with
    | nil => simp [fields]
    | cons d ds => rw [ih hcs (by simp)]

/-! ## The conversions on decimal strings -/

theorem digits_value_append (ds : List Nat) (d : Nat) :
    digits_value (ds ++ [d]) = 10 * digits_value ds + d := by
  simp [digits_value, List.foldl_append]

theorem digits_value_eq_ofDigits (ds : List Nat) :
    digits_value ds = Nat.ofDigits 10 ds.reverse := by
  induction ds using List.reverseRecOn with
  | nil => simp [digits_value]
  | append_singleton ds d ih =>
    rw [digits_value_append, ih, List.reverse_append]
    simp [Nat.ofDigits_cons]
    omega

theorem take_digits_of_all (s : List Char) (h : ∀ c ∈ s, isdigit c = true) :
    take_digits s = s.map (fun c => c.toNat - 48) := by
  induction s with
  | nil => rfl
  | cons c cs ih =>
    have hc := h c (List.mem_cons_self _ _)
    simp [take_digits, hc, ih (fun x hx => h x (List.mem_cons_of_mem _ hx))]

theorem digits_value_take_digits (s : List Char) (h : ∀ c ∈ s, isdigit c = true) :
    digits_value (take_digits s) = decimal_value s := by
  rw [take_digits_of_all s h, digits_value_eq_ofDigits, decimal_value]

theorem isdigit_not_special (c : Char) (h : isdigit c = true) :
    isspace c = false ∧ c ≠ '-' ∧ c ≠ '+' ∧ c ≠ ',' := by
  simp only [isdigit, Bool.and_eq_true, decide_eq_true_eq] at h
  refine ⟨?_, ?_, ?_, ?_⟩
  · simp only [isspace, Bool.or_eq_false_iff, beq_eq_false_iff_ne, Bool.and_eq_false_iff,
      decide_eq_false_iff_not]
    omega
  · intro hc
    rw [hc] at h
    exact absurd h.1 (by decide)
  · intro hc
    rw [hc] at h
    exact absurd h.1 (by decide)
  · intro hc
    rw [hc] at h
    exact absurd h.1 (by decide)

theorem scan_integer_decimal (s : List Char) (h : is_decimal s) :
    scan_integer s = (false, take_digits s) := by
  obtain ⟨hne, hall⟩ := h
  cases s with
  | nil => exact absurd rfl hne
  | cons c cs =>
    obtain ⟨h1, h2, h3, _⟩ := isdigit_not_special c (hall c (List.mem_cons_self _ _))
    simp [scan_integer, skip_space, h1, h2, h3]

theorem scan_integer_minus (s : List Char) :
    scan_integer ('-' :: s) = (true, take_digits s) := by
  have h1 : isspace '-' = false := by decide
  simp [scan_integer, skip_space, h1]

theorem take_digits_ne_nil (s : List Char) (h : is_decimal s) : take_digits s ≠ [] := by
  obtain ⟨hne, hall⟩ := h
  rw [take_digits_of_all s hall]
  simpa using hne

theorem stoull_decimal (s : List Char) (h : is_decimal s) (hr : decimal_value s ≤ 2 ^ 64 - 1) :
    stoull s = .ok (decimal_value s) := by
  have hv := digits_value_take_digits s h.2
  unfold stoull
  simp only [scan_integer_decimal s h, take_digits_ne_nil s h, if_false, hv]
  rw [if_neg (by omega)]
  simp

theorem stoi_signed_decimal (s : List Char) (h : is_signed_decimal s)
    (hr : -(2 ^ 31) ≤ signed_value s ∧ signed_value s ≤ 2 ^ 31 - 1) :
    stoi s = .ok (signed_value s) := by
  cases s with
  | nil => exact absurd h (by simp [is_signed_decimal])
  | cons c cs =>
    by_cases hc : c = '-'
    · subst hc
      simp only [is_signed_decimal, if_true] at h
      simp only [signed_value, if_true] at hr ⊢
      have hv := digits_value_take_digits cs h.2
      unfold stoi
      simp only [scan_integer_minus, take_digits_ne_nil cs h, if_false, hv, if_true]
      rw [if_neg (by omega)]
    · simp only [is_signed_decimal, if_neg hc] at h
      simp only [signed_value, if_neg hc] at hr ⊢
      have hv := digits_value_take_digits (c :: cs) h.2
      unfold stoi
      simp only [scan_integer_decimal _ h, take_digits_ne_nil _ h, if_false, hv]
      rw [if_neg (by omega)]
      simp

theorem not_comma_of_decimal (s : List Char) (h : is_decimal s) : ',' ∉ s := by
  intro hm
  exact (isdigit_not_special _ (h.2 _ hm)).2.2.2 rfl

theorem not_comma_of_signed_decimal (s : List Char) (h : is_signed_decimal s) :
    ',' ∉ s ∧ s ≠ [] := by
  cases s with
  | nil => exact absurd h (by simp [is_signed_decimal])
  | cons c cs =>
    refine ⟨?_, by simp⟩
    by_cases hc : c = '-'
    · subst hc
      simp only [is_signed_decimal, if_true] at h
      intro hm
      rcases List.mem_cons.1 hm with hm | hm
      · exact absurd hm (by decide)
      · exact not_comma_of_decimal cs h hm
    · simp only [is_signed_decimal, if_neg hc] at h
      exact not_comma_of_decimal _ h

/-! ## Conversions that fail -/

/-- The outcome of `process_line` on a line of four parts, from the three conversions. -/
theorem process_line_four (line p0 p1 p2 p3 : List Char) (symbols : Store)
    (hs : split_parts line = [p0, p1, p2, p3]) :
    process_line line symbols =
      match stoull p0 with
      | .error e => (Outcome.caught e, symbols)
      | .ok t =>
        match stoi p2 with
        | .error e => (Outcome.caught e, symbols)
        | .ok q =>
          match stoi p3 with
          | .error e => (Outcome.caught e, symbols)
          | .ok p => (Outcome.applied, apply_record symbols ⟨t, p1, q, p⟩) := by
  unfold process_line parse_fields
  rw [hs]
  dsimp only
  cases stoull p0 with
  | error e => rfl
  | ok t =>
    dsimp only
    cases stoi p2 with
    | error e => rfl
    | ok q =>
      dsimp only
      cases stoi p3 with
      | error e => rfl
      | ok p => rfl

/-! ## Conversions of signed decimal strings -/

theorem split_four (f0 f1 f2 f3 : List Char) (c0 : ',' ∉ f0) (c1 : ',' ∉ f1) (c2 : ',' ∉ f2)
    (c3 : ',' ∉ f3) (n3 : f3 ≠ []) :
    split_parts (f0 ++ ',' :: (f1 ++ ',' :: (f2 ++ ',' :: f3))) = [f0, f1, f2, f3] := by
  rw [split_parts_eq_fields, fields_append_comma _ _ c0, fields_append_comma _ _ c1,
    fields_append_comma _ _ c2, fields_single _ c3 n3]

theorem stoull_signed_out_of_range (s : List Char) (h : is_signed_decimal s)
    (hr : signed_value s < -(2 ^ 64 - 1) ∨ 2 ^ 64 - 1 < signed_value s) :
    stoull s = .error .out_of_range := by
  cases s with
  | nil => exact absurd h (by simp [is_signed_decimal])
  | cons c cs =>
    by_cases hc : c = '-'
    · subst hc
      simp only [is_signed_decimal, if_true] at h
      simp only [signed_value, if_true] at hr
      have hv := digits_value_take_digits cs h.2
      unfold stoull
      simp only [scan_integer_minus, take_digits_ne_nil cs h, if_false, hv]
      rw [if_pos (by omega)]
    · simp only [is_signed_decimal, if_neg hc] at h
      simp only [signed_value, if_neg hc] at hr
      have hv := digits_value_take_digits (c :: cs) h.2
      unfold stoull
      simp only [scan_integer_decimal _ h, take_digits_ne_nil _ h, if_false, hv]
      rw [if_pos (by omega)]

theorem stoull_signed_in_range (s : List Char) (h : is_signed_decimal s)
    (h1 : -(2 ^ 64 - 1) ≤ signed_value s) (h2 : signed_value s ≤ 2 ^ 64 - 1) :
    stoull s = .ok (signed_value s % 2 ^ 64).toNat := by
  cases s with
  | nil => exact absurd h (by simp [is_signed_decimal])
  | cons c cs =>
    by_cases hc : c = '-'
    · subst hc
      simp only [is_signed_decimal, if_true] at h
      simp only [signed_value, if_true] at h1 h2 ⊢
      have hv := digits_value_take_digits cs h.2
      unfold stoull
      simp only [scan_integer_minus, take_digits_ne_nil cs h, if_false, hv, if_true]
      rw [if_neg (by omega)]
      congr 1
      omega
    · simp only [is_signed_decimal, if_neg hc] at h
      simp only [signed_value, if_neg hc] at h1 h2 ⊢
      have hv := digits_value_take_digits (c :: cs) h.2
      unfold stoull
      simp only [scan_integer_decimal _ h, take_digits_ne_nil _ h, if_false, hv]
      rw [if_neg (by omega)]
      simp only [Bool.false_eq_true, if_false]
      congr 1
      omega

theorem stoi_signed_out_of_range (s : List Char) (h : is_signed_decimal s)
    (hr : signed_value s < -(2 ^ 31) ∨ 2 ^ 31 - 1 < signed_value s) :
    stoi s = .error .out_of_range := by
  cases s with
  | nil => exact absurd h (by simp [is_signed_decimal])
  | cons c cs =>
    by_cases hc : c = '-'
    · subst hc
      simp only [is_signed_decimal, if_true] at h
      simp only [signed_value, if_true] at hr
      have hv := digits_value_take_digits cs h.2
      unfold stoi
      simp only [scan_integer_minus, take_digits_ne_nil cs h, if_false, hv, if_true]
      rw [if_pos (by omega)]
    · simp only [is_signed_decimal, if_neg hc] at h
      simp only [signed_value, if_neg hc] at hr
      have hv := digits_value_take_digits (c :: cs) h.2
      unfold stoi
      simp only [scan_integer_decimal _ h, take_digits_ne_nil _ h, if_false, hv]
      rw [if_pos (by simpa using hr)]

/-! ## The update of one entry -/

theorem stoull_lt (s : List Char) (t : Nat) (h : stoull s = .ok t) : t < 2 ^ 64 := by
  unfold stoull at h
  simp only at h
  split at h
  · simp at h
  · split at h
    · simp at h
    · simp only [Except.ok.injEq] at h
      rw [← h]
      split <;> omega

theorem stoi_range (s : List Char) (v : Int) (h : stoi s = .ok v) :
    -(2 ^ 31) ≤ v ∧ v ≤ 2 ^ 31 - 1 := by
  dsimp only [stoi] at h
  generalize (if (scan_integer s).1 = true then -(digits_value (scan_integer s).2 : Int)
    else (digits_value (scan_integer s).2 : Int)) = v0 at h
  split at h
  · simp at h
  · split at h
    · simp at h
    · simp only [Except.ok.injEq] at h
      rw [← h]
      omega

/-- The values of an accepted record fit the types of the program. -/
theorem accepted_ranges (line : List Char) (r : TradeRecord) (h : accepted line = some r) :
    r.timestamp < 2 ^ 64 ∧ (-(2 ^ 31) ≤ r.quantity ∧ r.quantity ≤ 2 ^ 31 - 1) ∧
      (-(2 ^ 31) ≤ r.price ∧ r.price ≤ 2 ^ 31 - 1) := by
  unfold accepted at h
  cases hp : parse_fields line with
  | error o => simp [hp] at h
  | ok r' =>
    simp only [hp, Option.some.injEq] at h
    subst h
    unfold parse_fields at hp
    split at hp
    · rename_i p0 p1 p2 p3 hs
      cases h0 : stoull p0 with
      | error e => simp [h0] at hp
      | ok t =>
        cases h2 : stoi p2 with
        | error e => simp [h0, h2] at hp
        | ok q =>
          cases h3 : stoi p3 with
          | error e => simp [h0, h2, h3] at hp
          | ok p =>
            simp only [h0, h2, h3, Except.ok.injEq] at hp
            rw [← hp]
            exact ⟨stoull_lt p0 t h0, stoi_range p2 q h2, stoi_range p3 p h3⟩
    · simp at hp

theorem process_line_accepted (line : List Char) (r : TradeRecord) (symbols : Store)
    (h : accepted line = some r) :
    process_line line symbols = (Outcome.applied, apply_record symbols r) := by
  rw [process_line_eq, h]

theorem find_apply_record_same (symbols : Store) (r : TradeRecord) :
    find (apply_record symbols r) r.symbol =
      some (update_stats r.timestamp r.quantity r.price ((find symbols r.symbol).getD {})) := by
  unfold apply_record
  rw [find_modify_same]

theorem sub_u64_eq (t l : Nat) :
    sub_u64 t l = (((t : Int) - (l : Int)) % 2 ^ 64).toNat := by
  unfold sub_u64
  omega

theorem update_stats_max_gap_le (t : Nat) (q p : Int) (stats : SymbolStats) :
    stats.max_gap ≤ (update_stats t q p stats).max_gap := by
  unfold update_stats
  simp only
  split
  · exact le_max_left _ _
  · exact le_refl _

theorem update_stats_max_price_le (t : Nat) (q p : Int) (stats : SymbolStats) :
    stats.max_price ≤ (update_stats t q p stats).max_price ∧
      p ≤ (update_stats t q p stats).max_price := by
  unfold update_stats
  exact ⟨le_max_left _ _, le_max_right _ _⟩

/-- The entry a record creates for a symbol that had none. -/
theorem find_apply_record_fresh (symbols : Store) (r : TradeRecord)
    (h : find symbols r.symbol = none) :
    find (apply_record symbols r) r.symbol =
      some ⟨r.timestamp, 0, to_int64 r.quantity,
        to_int64 (to_int32 (r.quantity * r.price)), max 0 r.price⟩ := by
  rw [find_apply_record_same, h]
  simp [update_stats]

/-! ## Sequences of lines and of records -/

theorem fold_stats_concat (rs : List TradeRecord) (r : TradeRecord) (st : SymbolStats) :
    fold_stats (rs ++ [r]) st =
      update_stats r.timestamp r.quantity r.price (fold_stats rs st) := by
  simp [fold_stats, List.foldl_append]

theorem process_lines_append (a b : List (List Char)) (symbols : Store) :
    process_lines (a ++ b) symbols = process_lines b (process_lines a symbols) := by
  simp [process_lines, List.foldl_append]

theorem process_lines_concat (a : List (List Char)) (line : List Char) (symbols : Store) :
    process_lines (a ++ [line]) symbols = (process_line line (process_lines a symbols)).2 := by
  simp [process_lines, List.foldl_append]

theorem records_of_append (a b : List (List Char)) (s : List Char) :
    records_of (a ++ b) s = records_of a s ++ records_of b s := by
  simp [records_of, List.filterMap_append, List.filter_append]

theorem update_stats_last_timestamp (t : Nat) (q p : Int) (stats : SymbolStats) :
    (update_stats t q p stats).last_timestamp = t := rfl

theorem update_stats_after_zero (t : Nat) (q p : Int) (stats : SymbolStats)
    (h : stats.last_timestamp = 0) : (update_stats t q p stats).max_gap = stats.max_gap := by
  simp [update_stats, h]

theorem records_of_lines_of (lines : List (List Char)) (s : List Char) :
    records_of (lines_of lines s) s = records_of lines s := by
  induction lines with
  | nil => rfl
  | cons line lines ih =>
    rw [records_of_cons]
    cases ha : accepted line with
    | none =>
      have : lines_of (line :: lines) s = lines_of lines s := by
        simp [lines_of, List.filter_cons, ha]
      rw [this, ih]
    | some r =>
      by_cases hs : r.symbol = s
      · have : lines_of (line :: lines) s = line :: lines_of lines s := by
          simp [lines_of, List.filter_cons, ha, hs]
        rw [this, records_of_cons, ha, ih]
      · have : lines_of (line :: lines) s = lines_of lines s := by
          simp [lines_of, List.filter_cons, ha, hs]
        simp only [this, ih, hs, if_false]

theorem records_of_swap (pre post : List (List Char)) (l1 l2 : List Char) (r1 r2 : TradeRecord)
    (h1 : accepted l1 = some r1) (h2 : accepted l2 = some r2) (hne : r1.symbol ≠ r2.symbol)
    (t : List Char) :
    records_of (pre ++ l1 :: l2 :: post) t = records_of (pre ++ l2 :: l1 :: post) t := by
  rw [records_of_append, records_of_append]
  congr 1
  simp only [records_of_cons, h1, h2]
  by_cases e1 : r1.symbol = t
  · have e2 : ¬ r2.symbol = t := fun e => hne (e1.trans e.symm)
    simp [e1, e2]
  · by_cases e2 : r2.symbol = t
    · simp [e1, e2]
    · simp [e1, e2]

/-- Two maps with the same entries are sorted into the same sequence of entries. -/
theorem sorted_symbols_congr (a b : Store) (ha : (keys a).Nodup) (hb : (keys b).Nodup)
    (h : ∀ t, find a t = find b t) : sorted_symbols a = sorted_symbols b := by
  have na : a.Nodup := List.Nodup.of_map Prod.fst ha
  have nb : b.Nodup := List.Nodup.of_map Prod.fst hb
  have hperm : a.Perm b := by
    rw [List.perm_ext_iff_of_nodup na nb]
    intro e
    obtain ⟨k, v⟩ := e
    constructor
    · intro hm
      have := find_of_mem a k v ha hm
      rw [h] at this
      exact mem_of_find b k v this
    · intro hm
      have := find_of_mem b k v hb hm
      rw [← h] at this
      exact mem_of_find a k v this
  exact sort_unique b hb _ ((perm_sorted_symbols a).trans hperm) (ascending_sorted_symbols a ha)

/-! ## Monotone and bounded statistics -/

/-- An entry never loses its `max_gap` or its `max_price` through `process_line`. -/
theorem process_line_monotone (line : List Char) (symbols : Store) (s : List Char)
    (st : SymbolStats) (h : find symbols s = some st) :
    ∃ st', find (process_line line symbols).2 s = some st' ∧
      st.max_gap ≤ st'.max_gap ∧ st.max_price ≤ st'.max_price := by
  rw [process_line_eq]
  cases ha : accepted line with
  | none => exact ⟨st, h, le_refl _, le_refl _⟩
  | some r =>
    by_cases hs : r.symbol = s
    · subst hs
      refine ⟨update_stats r.timestamp r.quantity r.price st, ?_,
        update_stats_max_gap_le _ _ _ _, (update_stats_max_price_le _ _ _ _).1⟩
      simp only [find_apply_record_same, h, Option.getD_some]
    · refine ⟨st, ?_, le_refl _, le_refl _⟩
      simp only [apply_record, find_modify_other _ _ _ _ hs, h]

theorem fold_stats_cons (r : TradeRecord) (rs : List TradeRecord) (st : SymbolStats) :
    fold_stats (r :: rs) st = fold_stats rs (update_stats r.timestamp r.quantity r.price st) :=
  rfl

theorem fold_stats_max_price_le (rs : List TradeRecord) (st : SymbolStats) :
    st.max_price ≤ (fold_stats rs st).max_price ∧
      ∀ r ∈ rs, r.price ≤ (fold_stats rs st).max_price := by
  induction rs generalizing st with
  | nil => exact ⟨le_refl _, by simp⟩
  | cons x xs ih =>
    rw [fold_stats_cons]
    obtain ⟨h1, h2⟩ := ih (update_stats x.timestamp x.quantity x.price st)
    obtain ⟨u1, u2⟩ := update_stats_max_price_le x.timestamp x.quantity x.price st
    refine ⟨le_trans u1 h1, ?_⟩
    intro r hr
    rcases List.mem_cons.1 hr with hr | hr
    · rw [hr]
      exact le_trans u2 h1
    · exact h2 r hr

/-- In every map reached from the empty one no `max_price` is negative. -/
theorem max_price_nonneg (lines : List (List Char)) (s : List Char) (st : SymbolStats)
    (h : find (process_lines lines []) s = some st) : 0 ≤ st.max_price := by
  rw [find_process_lines] at h
  cases hrs : records_of lines s with
  | nil => simp [hrs, stats_after, find] at h
  | cons r rs =>
    simp only [hrs, stats_after, find, Option.getD_none, Option.some.injEq] at h
    rw [← h]
    exact (fold_stats_max_price_le (r :: rs) {}).1

theorem mem_records_of (lines : List (List Char)) (s : List Char) (r : TradeRecord)
    (h : r ∈ records_of lines s) : ∃ line ∈ lines, accepted line = some r ∧ r.symbol = s := by
  unfold records_of at h
  rw [List.mem_filter, List.mem_filterMap] at h
  obtain ⟨⟨line, hl, ha⟩, hs⟩ := h
  exact ⟨line, hl, ha, by simpa using hs⟩

/-! ## The average price -/

theorem tdiv_between (S V lo hi : Int) (hV : 0 < V) (h1 : lo * V ≤ S) (h2 : S ≤ hi * V) :
    lo ≤ Int.tdiv S V ∧ Int.tdiv S V ≤ hi := by
  by_cases hS : 0 ≤ S
  · rw [Int.tdiv_eq_ediv hS (le_of_lt hV)]
    exact ⟨Int.le_ediv_of_mul_le hV h1, Int.ediv_le_of_le_mul hV h2⟩
  · have hS' : 0 ≤ -S := by omega
    have e : Int.tdiv S V = -((-S) / V) := by
      rw [← Int.tdiv_eq_ediv hS' (le_of_lt hV), Int.neg_tdiv, neg_neg]
    rw [e]
    have a1 : (-hi) ≤ (-S) / V := Int.le_ediv_of_mul_le hV (by linarith)
    have a2 : (-S) / V ≤ -lo := Int.ediv_le_of_le_mul hV (by linarith)
    constructor <;> linarith

theorem sum_quantity_pos (rs : List TradeRecord) (hne : rs ≠ [])
    (hpos : ∀ r ∈ rs, 0 < r.quantity) : 0 < sum_quantity rs := by
  induction rs with
  | nil => exact absurd rfl hne
  | cons r rs ih =>
    have hr := hpos r (List.mem_cons_self _ _)
    by_cases hrs : rs = []
    · subst hrs
      simpa [sum_quantity] using hr
    · have := ih hrs (fun x hx => hpos x (List.mem_cons_of_mem _ hx))
      simp only [sum_quantity, List.map_cons, List.sum_cons] at this ⊢
      omega

theorem sum_product_bounds (rs : List TradeRecord) (lo hi : Int)
    (hpos : ∀ r ∈ rs, 0 < r.quantity) (hb : ∀ r ∈ rs, lo ≤ r.price ∧ r.price ≤ hi) :
    lo * sum_quantity rs ≤ sum_product rs ∧ sum_product rs ≤ hi * sum_quantity rs := by
  induction rs with
  | nil => simp [sum_quantity, sum_product]
  | cons r rs ih =>
    have hr := hpos r (List.mem_cons_self _ _)
    have hbr := hb r (List.mem_cons_self _ _)
    obtain ⟨i1, i2⟩ := ih (fun x hx => hpos x (List.mem_cons_of_mem _ hx))
      (fun x hx => hb x (List.mem_cons_of_mem _ hx))
    simp only [sum_quantity, sum_product, List.map_cons, List.sum_cons] at i1 i2 ⊢
    constructor
    · nlinarith [mul_nonneg (le_of_lt hr) (sub_nonneg.2 hbr.1)]
    · nlinarith [mul_nonneg (le_of_lt hr) (sub_nonneg.2 hbr.2)]

theorem exists_min_price (rs : List TradeRecord) (hne : rs ≠ []) :
    ∃ r ∈ rs, ∀ x ∈ rs, r.price ≤ x.price := by
  induction rs with
  | nil => exact absurd rfl hne
  | cons a rs ih =>
    by_cases hrs : rs = []
    · subst hrs
      exact ⟨a, List.mem_cons_self _ _, by simp⟩
    · obtain ⟨m, hm, hmin⟩ := ih hrs
      by_cases hle : a.price ≤ m.price
      · refine ⟨a, List.mem_cons_self _ _, ?_⟩
        intro x hx
        rcases List.mem_cons.1 hx with hx | hx
        · rw [hx]
        · exact le_trans hle (hmin x hx)
      · refine ⟨m, List.mem_cons_of_mem _ hm, ?_⟩
        intro x hx
        rcases List.mem_cons.1 hx with hx | hx
        · rw [hx]
          omega
        · exact hmin x hx

theorem exists_max_price (rs : List TradeRecord) (hne : rs ≠ []) :
    ∃ r ∈ rs, ∀ x ∈ rs, x.price ≤ r.price := by
  induction rs with
  | nil => exact absurd rfl hne
  | cons a rs ih =>
    by_cases hrs : rs = []
    · subst hrs
      exact ⟨a, List.mem_cons_self _ _, by simp⟩
    · obtain ⟨m, hm, hmax⟩ := ih hrs
      by_cases hle : m.price ≤ a.price
      · refine ⟨a, List.mem_cons_self _ _, ?_⟩
        intro x hx
        rcases List.mem_cons.1 hx with hx | hx
        · rw [hx]
        · exact le_trans (hmax x hx) hle
      · refine ⟨m, List.mem_cons_of_mem _ hm, ?_⟩
        intro x hx
        rcases List.mem_cons.1 hx with hx | hx
        · rw [hx]
          omega
        · exact hmax x hx

/-- The average of line 112 for the entry built from a non-empty sequence of records
whose products fit 32 bits and whose sums fit 64 bits. -/
theorem fold_stats_avg_price (rs : List TradeRecord) (hne0 : rs ≠ [])
    (hprod : ∀ r ∈ rs, -(2 ^ 31) ≤ r.quantity * r.price ∧ r.quantity * r.price < 2 ^ 31)
    (hq : -(2 ^ 63) ≤ sum_quantity rs ∧ sum_quantity rs < 2 ^ 63)
    (hw : -(2 ^ 63) ≤ sum_product rs ∧ sum_product rs < 2 ^ 63)
    (hne : sum_quantity rs ≠ 0)
    (hdiv : ¬ (sum_product rs = -(2 ^ 63) ∧ sum_quantity rs = -1)) :
    avg_price (fold_stats rs {}) =
      some (to_int32 (Int.tdiv (sum_product rs) (sum_quantity rs))) := by
  have htv : (fold_stats rs {}).total_volume = sum_quantity rs := by
    rw [fold_stats_total_volume _ _ hne0]
    simp only [zero_add]
    exact to_int64_of_range _ hq.1 hq.2
  have hws : (fold_stats rs {}).weighted_sum = sum_product rs := by
    rw [fold_stats_weighted_sum _ _ hne0, sum_to_int32_product _ hprod]
    simp only [zero_add]
    exact to_int64_of_range _ hw.1 hw.2
  unfold avg_price
  rw [htv, hws, if_neg hne, if_neg hdiv]

/-! ## Invariance under reordering -/

theorem records_of_perm (l1 l2 : List (List Char)) (h : l1.Perm l2) (s : List Char) :
    (records_of l1 s).Perm (records_of l2 s) := by
  unfold records_of
  exact (h.filterMap accepted).filter _

theorem fold_stats_max_price (rs : List TradeRecord) (st : SymbolStats) :
    (fold_stats rs st).max_price = (rs.map TradeRecord.price).foldl max st.max_price := by
  induction rs generalizing st with
  | nil => rfl
  | cons r rs ih =>
    rw [fold_stats_cons, ih]
    rfl

theorem foldl_max_perm (a b : List Int) (h : a.Perm b) (m : Int) :
    a.foldl max m = b.foldl max m := by
  haveI : RightCommutative (max : Int → Int → Int) :=
    ⟨fun x y z => by rw [max_assoc, max_comm y z, ← max_assoc]⟩
  exact h.foldl_eq m

/-- The additive statistics and the maximum price of an entry built from a sequence of
records do not depend on the order of the records. -/
theorem fold_stats_perm (a b : List TradeRecord) (h : a.Perm b) :
    (fold_stats a {}).total_volume = (fold_stats b {}).total_volume ∧
    (fold_stats a {}).weighted_sum = (fold_stats b {}).weighted_sum ∧
    (fold_stats a {}).max_price = (fold_stats b {}).max_price := by
  by_cases ha : a = []
  · subst ha
    rw [h.nil_eq]
    exact ⟨rfl, rfl, rfl⟩
  · have hb : b ≠ [] := fun e => ha (by rw [e] at h; exact h.eq_nil)
    refine ⟨?_, ?_, ?_⟩
    · rw [fold_stats_total_volume a _ ha, fold_stats_total_volume b _ hb,
        (h.map TradeRecord.quantity).sum_eq]
    · rw [fold_stats_weighted_sum a _ ha, fold_stats_weighted_sum b _ hb,
        (h.map (fun r => to_int32 (r.quantity * r.price))).sum_eq]
    · rw [fold_stats_max_price, fold_stats_max_price]
      exact foldl_max_perm _ _ (h.map TradeRecord.price) _

/-! ## Conversions of a numeric prefix -/

/-- C1: after `process_line` has been applied to the lines in order from the empty map, a
symbol has an entry exactly when some accepted line carries it, and the `total_volume` of
that entry is the sum of the quantities of the accepted lines of the symbol in 64-bit
signed arithmetic. -/
theorem C1_total_volume (lines : List (List Char)) (s : List Char) :
    (find (process_lines lines []) s).map SymbolStats.total_volume =
      if records_of lines s = [] then none
      else some (to_int64 ((records_of lines s).map TradeRecord.quantity).sum) := by
  rw [find_process_lines]
  cases h : records_of lines s with
  | nil => simp [stats_after, find]
  | cons r rs =>
    simp only [stats_after, find, Option.getD_none, Option.map_some', reduceCtorEq, if_false]
    rw [fold_stats_total_volume _ _ (by simp)]
    simp

/-- C2, counterexample: three accepted records of symbol `A` whose products all fit an `int`
and whose quantities sum to 1.  The sum of the products is 4294967295, which is also the
truncated quotient, but the average written in the report is -1: line 112 converts the
64-bit quotient to `int`. -/
theorem C2_counterexample :
    main ["1,A,1,2147483647".toList, "2,A,-1,-2147483647".toList, "3,A,1,1".toList] =
      some [⟨"A".toList, 1, 1, -1, 2147483647⟩] ∧
    Int.tdiv
      (sum_product (records_of
        ["1,A,1,2147483647".toList, "2,A,-1,-2147483647".toList, "3,A,1,1".toList] "A".toList))
      (sum_quantity (records_of
        ["1,A,1,2147483647".toList, "2,A,-1,-2147483647".toList, "3,A,1,1".toList] "A".toList)) =
      4294967295 := by
  decide

/-- C2, amended: for the accepted records of a symbol, when every product quantity times
price fits a 32-bit `int`, both sums fit 64 bits, the sum of the quantities is not zero and
the quotient is not `INT64_MIN / -1`, the average price of the symbol is the sum of the
products divided by the sum of the quantities, truncated toward zero and converted to a
32-bit `int`; it is the quotient itself when the quotient fits an `int`; and it is the
average in the row of that symbol in every report `main` writes. -/
theorem C2_avg_price (lines : List (List Char)) (s : List Char)
    (hprod : ∀ r ∈ records_of lines s,
      -(2 ^ 31) ≤ r.quantity * r.price ∧ r.quantity * r.price < 2 ^ 31)
    (hq : -(2 ^ 63) ≤ sum_quantity (records_of lines s) ∧
      sum_quantity (records_of lines s) < 2 ^ 63)
    (hw : -(2 ^ 63) ≤ sum_product (records_of lines s) ∧
      sum_product (records_of lines s) < 2 ^ 63)
    (hne : sum_quantity (records_of lines s) ≠ 0)
    (hdiv : ¬ (sum_product (records_of lines s) = -(2 ^ 63) ∧
      sum_quantity (records_of lines s) = -1)) :
    (find (process_lines lines []) s).bind avg_price =
        some (to_int32 (Int.tdiv (sum_product (records_of lines s))
          (sum_quantity (records_of lines s)))) ∧
    (-(2 ^ 31) ≤ Int.tdiv (sum_product (records_of lines s)) (sum_quantity (records_of lines s)) →
      Int.tdiv (sum_product (records_of lines s)) (sum_quantity (records_of lines s)) < 2 ^ 31 →
      (find (process_lines lines []) s).bind avg_price =
        some (Int.tdiv (sum_product (records_of lines s))
          (sum_quantity (records_of lines s)))) ∧
    (∀ rows, main lines = some rows →
      ∃ row ∈ rows, row.symbol = s ∧
        row.total_volume = sum_quantity (records_of lines s) ∧
        row.avg_price = to_int32 (Int.tdiv (sum_product (records_of lines s))
          (sum_quantity (records_of lines s)))) := by
  have hfind := find_process_lines lines [] s
  cases hrs : records_of lines s with
  | nil => simp [hrs, sum_quantity] at hne
  | cons r rs =>
    rw [hrs] at hprod hq hw hne hdiv
    have hst : find (process_lines lines []) s = some (fold_stats (r :: rs) {}) := by
      rw [hfind, hrs]
      simp [stats_after, find]
    have htv : (fold_stats (r :: rs) {}).total_volume = sum_quantity (r :: rs) := by
      rw [fold_stats_total_volume _ _ (by simp)]
      simp only [zero_add]
      exact to_int64_of_range _ hq.1 hq.2
    have hws : (fold_stats (r :: rs) {}).weighted_sum = sum_product (r :: rs) := by
      rw [fold_stats_weighted_sum _ _ (by simp), sum_to_int32_product _ hprod]
      simp only [zero_add]
      exact to_int64_of_range _ hw.1 hw.2
    have havg : avg_price (fold_stats (r :: rs) {}) =
        some (to_int32 (Int.tdiv (sum_product (r :: rs)) (sum_quantity (r :: rs)))) := by
      unfold avg_price
      rw [htv, hws, if_neg hne, if_neg hdiv]
    refine ⟨?_, ?_, ?_⟩
    · rw [hst]
      exact havg
    · intro h1 h2
      rw [hst, Option.some_bind, havg, to_int32_of_range _ h1 h2]
    · intro rows hm
      obtain ⟨row, hrow, hw⟩ := main_row_of_find lines rows s _ hm hst
      refine ⟨row, hrow, ?_⟩
      unfold write_row at hw
      simp only [havg, Option.some.injEq] at hw
      rw [← hw]
      exact ⟨rfl, htv, rfl⟩

/-- C2, witness: the three `AAPL` lines of the scenario satisfy the hypotheses. -/
theorem C2_avg_price_witness :
    (find (process_lines
      ["100,AAPL,10,50".toList, "150,AAPL,5,55".toList, "300,AAPL,2,60".toList] [])
      "AAPL".toList).bind avg_price = some 52 :=
  (C2_avg_price ["100,AAPL,10,50".toList, "150,AAPL,5,55".toList, "300,AAPL,2,60".toList]
    "AAPL".toList (by decide) (by decide) (by decide) (by decide) (by decide)).1

/-- C3: on the single accepted line `1,A,1,-5` the report gives `max_price` 0, although the
only price of symbol `A` is -5: the maximum starts from the initial value 0 of the struct
member instead of the first price. -/
theorem C3_max_price_negative :
    main ["1,A,1,-5".toList] = some [⟨"A".toList, 0, 1, -5, 0⟩] ∧
    (records_of ["1,A,1,-5".toList] "A".toList).map TradeRecord.price = [-5] := by
  decide

/-- C4: on the accepted lines `0,A,1,1` and `5,A,1,1` the report gives `max_gap` 0, although
the two timestamps of symbol `A` are 0 and 5 and their difference is 5: the second record
finds `last_timestamp == 0` and is taken for the first trade of the symbol. -/
theorem C4_max_gap_after_zero :
    main ["0,A,1,1".toList, "5,A,1,1".toList] = some [⟨"A".toList, 0, 2, 1, 1⟩] ∧
    (records_of ["0,A,1,1".toList, "5,A,1,1".toList] "A".toList).map TradeRecord.timestamp =
      [0, 5] ∧
    sub_u64 5 0 = 5 := by
  decide

/-- C5: for every map (its keys are distinct) the entries leave the sort step in strictly
ascending order of their symbols under the byte-wise comparison `str_lt`; so do the rows
prepared for any input, the rows `main` writes carry these symbols in this order, and
whenever an accepted `ZETA` line comes before an accepted `ALPHA` line the `ALPHA` row
precedes the `ZETA` row. -/
theorem C5_rows_ascending :
    (∀ symbols : Store, (keys symbols).Nodup →
      (keys (sorted_symbols symbols)).Pairwise (fun a b => str_lt a b = true)) ∧
    (∀ lines : List (List Char),
      (keys (sorted_symbols (process_lines lines []))).Pairwise
        (fun a b => str_lt a b = true)) ∧
    (∀ (lines : List (List Char)) (rows : List Row), main lines = some rows →
      rows.map Row.symbol = keys (sorted_symbols (process_lines lines []))) ∧
    (∀ (pre mid post : List (List Char)) (zl al : List Char) (rz ra : TradeRecord),
      accepted zl = some rz → rz.symbol = "ZETA".toList →
      accepted al = some ra → ra.symbol = "ALPHA".toList →
      ∃ a b c, keys (sorted_symbols (process_lines (pre ++ zl :: (mid ++ al :: post)) [])) =
        a ++ "ALPHA".toList :: (b ++ "ZETA".toList :: c)) := by
  refine ⟨keys_sorted_pairwise, ?_, ?_, ?_⟩
  · intro lines
    exact keys_sorted_pairwise _ (nodup_keys_process_lines lines [] (by simp [keys]))
  · intro lines rows hm
    exact write_rows_symbols _ rows hm
  · intro pre mid post zl al rz ra hz hzs ha has
    have hp := keys_sorted_perm (process_lines (pre ++ zl :: (mid ++ al :: post)) [])
    have hZ : "ZETA".toList ∈ keys (process_lines (pre ++ zl :: (mid ++ al :: post)) []) :=
      (mem_keys_process_lines _ _).2 ⟨zl, by simp, rz, hz, hzs⟩
    have hA : "ALPHA".toList ∈ keys (process_lines (pre ++ zl :: (mid ++ al :: post)) []) :=
      (mem_keys_process_lines _ _).2 ⟨al, by simp, ra, ha, has⟩
    exact before_of_pairwise _ _ _
      (keys_sorted_pairwise _ (nodup_keys_process_lines _ [] (by simp [keys])))
      (hp.mem_iff.2 hA) (hp.mem_iff.2 hZ) (by decide)

/-- C5, witness: a map with two distinct keys, and the input with a `ZETA` line before an
`ALPHA` line. -/
theorem C5_rows_ascending_witness :
    (keys (sorted_symbols [("ZETA".toList, {}), ("ALPHA".toList, {})])).Pairwise
        (fun a b => str_lt a b = true) ∧
    (∃ a b c, keys (sorted_symbols (process_lines
        ([] ++ "1,ZETA,1,1".toList :: ([] ++ "2,ALPHA,1,1".toList :: [])) [])) =
      a ++ "ALPHA".toList :: (b ++ "ZETA".toList :: c)) :=
  ⟨C5_rows_ascending.1 [("ZETA".toList, {}), ("ALPHA".toList, {})] (by decide),
   C5_rows_ascending.2.2.2 [] [] [] "1,ZETA,1,1".toList "2,ALPHA,1,1".toList
     ⟨1, "ZETA".toList, 1, 1⟩ ⟨2, "ALPHA".toList, 1, 1⟩
     (by decide) (by decide) (by decide) (by decide)⟩

/-- C6: for every input the rows prepared for the report carry pairwise distinct symbols,
and a symbol has a row exactly when some line of the input was accepted with that symbol;
the rows `main` writes carry exactly these symbols, and `main` writes them whenever the
division of line 112 has a result for every entry. -/
theorem C6_rows_match_symbols (lines : List (List Char)) :
    (keys (sorted_symbols (process_lines lines []))).Nodup ∧
    (∀ s, s ∈ keys (sorted_symbols (process_lines lines [])) ↔
      ∃ line ∈ lines, ∃ r, accepted line = some r ∧ r.symbol = s) ∧
    (∀ rows, main lines = some rows →
      rows.map Row.symbol = keys (sorted_symbols (process_lines lines []))) ∧
    ((∀ e ∈ process_lines lines [], avg_price e.2 ≠ none) → ∃ rows, main lines = some rows) := by
  have hp := keys_sorted_perm (process_lines lines [])
  refine ⟨?_, ?_, ?_, ?_⟩
  · exact hp.nodup_iff.2 (nodup_keys_process_lines lines [] (by simp [keys]))
  · intro s
    rw [hp.mem_iff]
    exact mem_keys_process_lines lines s
  · intro rows hm
    exact write_rows_symbols _ rows hm
  · intro h
    exact write_rows_defined _ (fun e he => h e ((perm_sorted_symbols _).mem_iff.1 he))

/-- C6, witness: an input with a rejected line; the report has the two rows of the
accepted symbols. -/
theorem C6_rows_match_symbols_witness :
    main ["1,ZETA,1,1".toList, "abc,AAPL,10".toList, "2,ALPHA,1,1".toList] =
        some [⟨"ALPHA".toList, 0, 1, 1, 1⟩, ⟨"ZETA".toList, 0, 1, 1, 1⟩] ∧
    [⟨"ALPHA".toList, 0, 1, 1, 1⟩, ⟨"ZETA".toList, 0, 1, 1, 1⟩].map Row.symbol =
      keys (sorted_symbols (process_lines
        ["1,ZETA,1,1".toList, "abc,AAPL,10".toList, "2,ALPHA,1,1".toList] [])) :=
  ⟨by decide,
   (C6_rows_match_symbols
      ["1,ZETA,1,1".toList, "abc,AAPL,10".toList, "2,ALPHA,1,1".toList]).2.2.1 _ (by decide)⟩

/-- C7: the three `AAPL` lines of the scenario, processed in order from the empty map,
give a report of exactly one row, `AAPL,150,17,52,60`, from an entry whose `weighted_sum`
is 895. -/
theorem C7_aapl_scenario :
    main ["100,AAPL,10,50".toList, "150,AAPL,5,55".toList, "300,AAPL,2,60".toList] =
      some [⟨"AAPL".toList, 150, 17, 52, 60⟩] ∧
    process_lines ["100,AAPL,10,50".toList, "150,AAPL,5,55".toList, "300,AAPL,2,60".toList] [] =
      [("AAPL".toList, ⟨300, 150, 17, 895, 60⟩)] := by
  decide

/-- C8: a line made of four fields separated by three commas, whose field 0 is a non-empty
string of decimal digits of value at most 2^64-1, whose field 1 is any text without a comma
(empty or with spaces included) and whose fields 2 and 3 are each an optional minus sign
followed by decimal digits of value in [-2^31, 2^31-1], is accepted: `process_line` ends
without a diagnostic and has applied the update of the record with these four values, the
symbol taken verbatim. -/
theorem C8_well_formed_line_accepted (f0 f1 f2 f3 : List Char) (symbols : Store)
    (h0 : is_decimal f0) (r0 : decimal_value f0 ≤ 2 ^ 64 - 1)
    (h1 : ',' ∉ f1)
    (h2 : is_signed_decimal f2)
    (r2 : -(2 ^ 31) ≤ signed_value f2 ∧ signed_value f2 ≤ 2 ^ 31 - 1)
    (h3 : is_signed_decimal f3)
    (r3 : -(2 ^ 31) ≤ signed_value f3 ∧ signed_value f3 ≤ 2 ^ 31 - 1) :
    comma_count (f0 ++ ',' :: (f1 ++ ',' :: (f2 ++ ',' :: f3))) = 3 ∧
    accepted (f0 ++ ',' :: (f1 ++ ',' :: (f2 ++ ',' :: f3))) =
      some ⟨decimal_value f0, f1, signed_value f2, signed_value f3⟩ ∧
    process_line (f0 ++ ',' :: (f1 ++ ',' :: (f2 ++ ',' :: f3))) symbols =
      (Outcome.applied,
        modify_entry symbols f1
          (update_stats (decimal_value f0) (signed_value f2) (signed_value f3))) := by
  have c0 := not_comma_of_decimal f0 h0
  have c2 := not_comma_of_signed_decimal f2 h2
  have c3 := not_comma_of_signed_decimal f3 h3
  have hsplit : split_parts (f0 ++ ',' :: (f1 ++ ',' :: (f2 ++ ',' :: f3))) = [f0, f1, f2, f3] := by
    rw [split_parts_eq_fields, fields_append_comma _ _ c0, fields_append_comma _ _ h1,
      fields_append_comma _ _ c2.1, fields_single _ c3.1 c3.2]
  have hparse : parse_fields (f0 ++ ',' :: (f1 ++ ',' :: (f2 ++ ',' :: f3))) =
      .ok ⟨decimal_value f0, f1, signed_value f2, signed_value f3⟩ := by
    unfold parse_fields
    rw [hsplit]
    simp only [stoull_decimal f0 h0 r0, stoi_signed_decimal f2 h2 r2,
      stoi_signed_decimal f3 h3 r3]
  refine ⟨?_, ?_, ?_⟩
  · simp only [comma_count, List.count_append, List.count_cons_self,
      List.count_eq_zero.2 c0, List.count_eq_zero.2 h1, List.count_eq_zero.2 c2.1,
      List.count_eq_zero.2 c3.1]
  · simp only [accepted, hparse]
  · simp only [process_line, hparse, apply_record]

/-- C8, witness: the line `007, AB C,-10,50` with leading zeros, a symbol with spaces and a
negative quantity. -/
theorem C8_well_formed_line_accepted_witness :
    process_line "007, AB C,-10,50".toList [] =
      (Outcome.applied, [(" AB C".toList, ⟨7, 0, -10, -500, 50⟩)]) :=
  (C8_well_formed_line_accepted "007".toList " AB C".toList "-10".toList "50".toList []
    (by decide) (by decide) (by decide) (by decide) (by decide) (by decide) (by decide)).2.2

/-- C9, counterexample: the line `100,AAPL,10,50,` has four commas, so five fields when a
field is counted per comma plus one, yet `process_line` accepts it and applies the record:
the split loop ends at the end of the text and never stores the empty last field. -/
theorem C9_counterexample :
    comma_count "100,AAPL,10,50,".toList + 1 = 5 ∧
    split_parts "100,AAPL,10,50,".toList =
      ["100".toList, "AAPL".toList, "10".toList, "50".toList] ∧
    process_line "100,AAPL,10,50,".toList [] =
      (Outcome.applied, [("AAPL".toList, ⟨100, 0, 10, 500, 50⟩)]) := by
  decide

/-- C9, amended: the split keeps every field between commas, empty ones included, except an
empty field after the last comma: the vector `parts` has one element per comma, and one more
when the line is not empty and does not end in a comma.  A line is rejected with the
column-count warning, the map unchanged, exactly when this number of parts is not 4. -/
theorem C9_field_count (line : List Char) (symbols : Store) :
    (split_parts line).length = field_count line ∧
    (field_count line ≠ 4 → process_line line symbols = (Outcome.invalid_format, symbols)) ∧
    ((process_line line symbols).1 = Outcome.invalid_format → field_count line ≠ 4) := by
  have hlen : (split_parts line).length = field_count line := by
    rw [split_parts_eq_fields, fields_length]
  refine ⟨hlen, ?_, ?_⟩
  · intro h
    rw [← hlen] at h
    unfold process_line parse_fields
    rcases hs : split_parts line with _ | ⟨p0, _ | ⟨p1, _ | ⟨p2, _ | ⟨p3, _ | ⟨p4, ps⟩⟩⟩⟩⟩
    all_goals first
      | rfl
      | (rw [hs] at h; exact absurd rfl h)
  · intro h hc
    rw [← hlen] at hc
    unfold process_line parse_fields at h
    rcases hs : split_parts line with _ | ⟨p0, _ | ⟨p1, _ | ⟨p2, _ | ⟨p3, _ | ⟨p4, ps⟩⟩⟩⟩⟩
    all_goals rw [hs] at h hc
    all_goals first
      | (simp at hc; done)
      | skip
    simp only at h
    cases h0 : stoull p0 with
    | error e => rw [h0] at h; cases e <;> simp [Outcome.caught] at h
    | ok t =>
      cases h2 : stoi p2 with
      | error e => rw [h0, h2] at h; cases e <;> simp [Outcome.caught] at h
      | ok q =>
        cases h3 : stoi p3 with
        | error e => rw [h0, h2, h3] at h; cases e <;> simp [Outcome.caught] at h
        | ok pr => rw [h0, h2, h3] at h; simp at h

/-- C9, witness: the three-field line `abc,AAPL,10` and the line `100,AAPL,10,` whose last
field is empty are both rejected with the column-count warning. -/
theorem C9_field_count_witness :
    process_line "abc,AAPL,10".toList [] = (Outcome.invalid_format, []) ∧
    process_line "100,AAPL,10,".toList [] = (Outcome.invalid_format, []) :=
  ⟨(C9_field_count "abc,AAPL,10".toList []).2.1 (by decide),
   (C9_field_count "100,AAPL,10,".toList []).2.1 (by decide)⟩

/-- C10: a call of `process_line` that ends in any of the three diagnostics (column count,
invalid number, number out of range) leaves the map as it was: no entry is modified and
none is created.  In particular the line `abc,AAPL,10` is rejected and leaves every map
unchanged. -/
theorem C10_rejection_atomic :
    (∀ (line : List Char) (symbols : Store),
      (process_line line symbols).1 ≠ Outcome.applied →
      (process_line line symbols).2 = symbols) ∧
    (∀ symbols : Store,
      process_line "abc,AAPL,10".toList symbols = (Outcome.invalid_format, symbols)) := by
  constructor
  · intro line symbols h
    unfold process_line at h ⊢
    cases hp : parse_fields line with
    | error o => rfl
    | ok r => rw [hp] at h; exact absurd rfl h
  · intro symbols
    have hp : parse_fields "abc,AAPL,10".toList = .error Outcome.invalid_format := by decide
    simp only [process_line, hp]

/-- C10, witness: a line rejected for each of the three reasons, on a map that already has
an entry for the symbol of the line. -/
theorem C10_rejection_atomic_witness :
    (process_line "100,AAPL,10".toList [("AAPL".toList, ⟨1, 2, 3, 4, 5⟩)]).2 =
      [("AAPL".toList, ⟨1, 2, 3, 4, 5⟩)] ∧
    (process_line "100,AAPL,ten,50".toList [("AAPL".toList, ⟨1, 2, 3, 4, 5⟩)]).2 =
      [("AAPL".toList, ⟨1, 2, 3, 4, 5⟩)] ∧
    (process_line "100,AAPL,10,2147483648".toList [("AAPL".toList, ⟨1, 2, 3, 4, 5⟩)]).2 =
      [("AAPL".toList, ⟨1, 2, 3, 4, 5⟩)] :=
  ⟨C10_rejection_atomic.1 _ _ (by decide),
   C10_rejection_atomic.1 _ _ (by decide),
   C10_rejection_atomic.1 _ _ (by decide)⟩

/-- C12, counterexample: in the line `-1,AAPL,10,50` the three numeric fields are decimal
texts of integers and the value of field 0, -1, lies outside [0, 2^64-1], yet `process_line`
accepts the line and applies the record with timestamp 2^64-1: `strtoull` negates the
magnitude in the unsigned type and reports no range error. -/
theorem C12_counterexample :
    is_signed_decimal "-1".toList ∧ signed_value "-1".toList = -1 ∧
    is_signed_decimal "10".toList ∧ is_signed_decimal "50".toList ∧
    process_line "-1,AAPL,10,50".toList [] =
      (Outcome.applied, [("AAPL".toList, ⟨18446744073709551615, 0, 10, 500, 50⟩)]) := by
  decide

/-- C12, amended: for a line of four fields whose three numeric fields are each an optional
minus sign followed by decimal digits, if the value of field 0 lies outside
[-(2^64-1), 2^64-1], or the value of field 2 or of field 3 lies outside [-2^31, 2^31-1],
`process_line` rejects the line with the out-of-range diagnostic and leaves the map
unchanged.  When all three values lie in these ranges the line is accepted, a negative
field 0 included, and the timestamp is the value of field 0 modulo 2^64. -/
theorem C12_out_of_range :
    (∀ (f0 f1 f2 f3 : List Char) (symbols : Store),
      is_signed_decimal f0 → ',' ∉ f1 → is_signed_decimal f2 → is_signed_decimal f3 →
      (signed_value f0 < -(2 ^ 64 - 1) ∨ 2 ^ 64 - 1 < signed_value f0 ∨
        signed_value f2 < -(2 ^ 31) ∨ 2 ^ 31 - 1 < signed_value f2 ∨
        signed_value f3 < -(2 ^ 31) ∨ 2 ^ 31 - 1 < signed_value f3) →
      process_line (f0 ++ ',' :: (f1 ++ ',' :: (f2 ++ ',' :: f3))) symbols =
        (Outcome.out_of_range, symbols)) ∧
    (∀ (f0 f1 f2 f3 : List Char) (symbols : Store),
      is_signed_decimal f0 → ',' ∉ f1 → is_signed_decimal f2 → is_signed_decimal f3 →
      (-(2 ^ 64 - 1) ≤ signed_value f0 ∧ signed_value f0 ≤ 2 ^ 64 - 1) →
      (-(2 ^ 31) ≤ signed_value f2 ∧ signed_value f2 ≤ 2 ^ 31 - 1) →
      (-(2 ^ 31) ≤ signed_value f3 ∧ signed_value f3 ≤ 2 ^ 31 - 1) →
      process_line (f0 ++ ',' :: (f1 ++ ',' :: (f2 ++ ',' :: f3))) symbols =
        (Outcome.applied,
          modify_entry symbols f1
            (update_stats (signed_value f0 % 2 ^ 64).toNat (signed_value f2)
              (signed_value f3)))) := by
  constructor
  · intro f0 f1 f2 f3 symbols h0 h1 h2 h3 h
    have c0 := not_comma_of_signed_decimal f0 h0
    have c2 := not_comma_of_signed_decimal f2 h2
    have c3 := not_comma_of_signed_decimal f3 h3
    rw [process_line_four _ f0 f1 f2 f3 symbols (split_four f0 f1 f2 f3 c0.1 h1 c2.1 c3.1 c3.2)]
    by_cases r0 : signed_value f0 < -(2 ^ 64 - 1) ∨ 2 ^ 64 - 1 < signed_value f0
    · rw [stoull_signed_out_of_range f0 h0 r0]
      rfl
    · rw [stoull_signed_in_range f0 h0 (by omega) (by omega)]
      by_cases r2 : signed_value f2 < -(2 ^ 31) ∨ 2 ^ 31 - 1 < signed_value f2
      · rw [stoi_signed_out_of_range f2 h2 r2]
        rfl
      · rw [stoi_signed_decimal f2 h2 (by omega)]
        have r3 : signed_value f3 < -(2 ^ 31) ∨ 2 ^ 31 - 1 < signed_value f3 := by omega
        rw [stoi_signed_out_of_range f3 h3 r3]
        rfl
  · intro f0 f1 f2 f3 symbols h0 h1 h2 h3 r0 r2 r3
    have c0 := not_comma_of_signed_decimal f0 h0
    have c2 := not_comma_of_signed_decimal f2 h2
    have c3 := not_comma_of_signed_decimal f3 h3
    rw [process_line_four _ f0 f1 f2 f3 symbols (split_four f0 f1 f2 f3 c0.1 h1 c2.1 c3.1 c3.2),
      stoull_signed_in_range f0 h0 r0.1 r0.2, stoi_signed_decimal f2 h2 r2,
      stoi_signed_decimal f3 h3 r3]
    rfl

/-- C12, witness: a price of 2147483648, one above the largest `int`, and a timestamp of
2^64; and the accepted line `-1,AAPL,10,50`. -/
theorem C12_out_of_range_witness :
    process_line "100,AAPL,10,2147483648".toList [("AAPL".toList, ⟨1, 2, 3, 4, 5⟩)] =
      (Outcome.out_of_range, [("AAPL".toList, ⟨1, 2, 3, 4, 5⟩)]) ∧
    process_line "18446744073709551616,AAPL,10,50".toList [] = (Outcome.out_of_range, []) ∧
    process_line "-1,AAPL,10,50".toList [] =
      (Outcome.applied, [("AAPL".toList, ⟨18446744073709551615, 0, 10, 500, 50⟩)]) :=
  ⟨C12_out_of_range.1 "100".toList "AAPL".toList "10".toList "2147483648".toList
      [("AAPL".toList, ⟨1, 2, 3, 4, 5⟩)] (by decide) (by decide) (by decide) (by decide)
      (by decide),
   C12_out_of_range.1 "18446744073709551616".toList "AAPL".toList "10".toList "50".toList []
      (by decide) (by decide) (by decide) (by decide) (by decide),
   C12_out_of_range.2 "-1".toList "AAPL".toList "10".toList "50".toList []
      (by decide) (by decide) (by decide) (by decide) (by decide) (by decide) (by decide)⟩

/-- C13: on the single accepted line `1,A,0,5` the entry of `A` reaches the report with
`total_volume` 0, and so it does after `1,A,5,1` and `2,A,-5,1`, whose quantities sum
to 0.  Nothing in `main` tests the divisor: line 112 executes the division by 0, which
has no result, so no row is written and no outcome of any kind is reported for the
symbol. -/
theorem C13_zero_volume_division :
    process_lines ["1,A,0,5".toList] [] = [("A".toList, ⟨1, 0, 0, 0, 5⟩)] ∧
    avg_price ⟨1, 0, 0, 0, 5⟩ = none ∧
    main ["1,A,0,5".toList] = none ∧
    process_lines ["1,A,5,1".toList, "2,A,-5,1".toList] [] =
      [("A".toList, ⟨2, 1, 0, 0, 1⟩)] ∧
    main ["1,A,5,1".toList, "2,A,-5,1".toList] = none := by
  decide

/-- C14: on the empty map the accepted line `1,A,65536,65536` creates the entry of `A`
with `last_timestamp` 1, `max_gap` 0, `total_volume` 65536 and `max_price` 65536, but with
`weighted_sum` 0, although quantity times price is 4294967296: line 58 multiplies the two
`int` values in 32 bits before the sum is widened to 64 bits. -/
theorem C14_fresh_entry_product :
    find [] "A".toList = none ∧
    accepted "1,A,65536,65536".toList = some ⟨1, "A".toList, 65536, 65536⟩ ∧
    process_line "1,A,65536,65536".toList [] =
      (Outcome.applied, [("A".toList, ⟨1, 0, 65536, 0, 65536⟩)]) ∧
    (65536 : Int) * 65536 = 4294967296 := by
  decide

/-- C15: when the entry of the symbol of an accepted record has a `last_timestamp` other
than 0, the update sets `max_gap` to the larger of the old `max_gap` and the difference
timestamp minus `last_timestamp` modulo 2^64; when the timestamp is the smaller of the
two, that difference is timestamp minus `last_timestamp` plus 2^64, a positive value. -/
theorem C15_gap_wraps :
    (∀ (t : Nat) (q p : Int) (stats : SymbolStats), stats.last_timestamp ≠ 0 →
      (update_stats t q p stats).max_gap =
        max stats.max_gap (((t : Int) - (stats.last_timestamp : Int)) % 2 ^ 64).toNat) ∧
    (∀ (line : List Char) (r : TradeRecord) (symbols : Store) (stats : SymbolStats),
      accepted line = some r → find symbols r.symbol = some stats →
      stats.last_timestamp ≠ 0 →
      ∃ st, find (process_line line symbols).2 r.symbol = some st ∧
        st.max_gap =
          max stats.max_gap
            (((r.timestamp : Int) - (stats.last_timestamp : Int)) % 2 ^ 64).toNat) ∧
    (∀ (t : Nat) (q p : Int) (stats : SymbolStats), stats.last_timestamp ≠ 0 →
      stats.last_timestamp < 2 ^ 64 → t < stats.last_timestamp →
      (update_stats t q p stats).max_gap =
        max stats.max_gap (t + 2 ^ 64 - stats.last_timestamp) ∧
      0 < t + 2 ^ 64 - stats.last_timestamp) := by
  have key : ∀ (t : Nat) (q p : Int) (stats : SymbolStats), stats.last_timestamp ≠ 0 →
      (update_stats t q p stats).max_gap =
        max stats.max_gap (((t : Int) - (stats.last_timestamp : Int)) % 2 ^ 64).toNat := by
    intro t q p stats h0
    unfold update_stats
    simp only [ne_eq, h0, not_false_eq_true, if_true]
    rw [sub_u64_eq]
  refine ⟨key, ?_, ?_⟩
  · intro line r symbols stats ha hf h0
    refine ⟨update_stats r.timestamp r.quantity r.price stats, ?_, key _ _ _ _ h0⟩
    rw [process_line_accepted line r symbols ha, find_apply_record_same, hf]
    rfl
  · intro t q p stats h0 hl ht
    refine ⟨?_, by omega⟩
    rw [key t q p stats h0]
    congr 1
    omega

/-- C15, witness: an entry with `last_timestamp` 150 receives the record of the accepted
line `100,AAPL,1,1`; the gap used is 100 - 150 + 2^64. -/
theorem C15_gap_wraps_witness :
    (update_stats 100 1 1 ⟨150, 50, 15, 775, 55⟩).max_gap =
        max 50 (100 + 2 ^ 64 - 150) ∧
    (∃ st, find (process_line "100,AAPL,1,1".toList
        [("AAPL".toList, ⟨150, 50, 15, 775, 55⟩)]).2 "AAPL".toList = some st ∧
      st.max_gap = max 50 (((100 : Int) - (150 : Int)) % 2 ^ 64).toNat) :=
  ⟨(C15_gap_wraps.2.2 100 1 1 ⟨150, 50, 15, 775, 55⟩ (by decide) (by decide) (by decide)).1,
   C15_gap_wraps.2.1 "100,AAPL,1,1".toList ⟨100, "AAPL".toList, 1, 1⟩
     [("AAPL".toList, ⟨150, 50, 15, 775, 55⟩)] ⟨150, 50, 15, 775, 55⟩
     (by decide) (by decide) (by decide)⟩

/-- C16: every update stores the timestamp of the record as `last_timestamp`.  When the
last accepted record of a symbol had timestamp 0, the next accepted record of the symbol,
whatever its timestamp, leaves `max_gap` as it was; the first record of a symbol, applied
to an entry created on the spot, likewise leaves `max_gap` at its initial 0. -/
theorem C16_zero_timestamp :
    (∀ (t : Nat) (q p : Int) (stats : SymbolStats),
      (update_stats t q p stats).last_timestamp = t) ∧
    (∀ (lines : List (List Char)) (line s : List Char) (r0 r : TradeRecord),
      (records_of lines s).getLast? = some r0 → r0.timestamp = 0 →
      accepted line = some r → r.symbol = s →
      ∃ st st', find (process_lines lines []) s = some st ∧
        find (process_lines (lines ++ [line]) []) s = some st' ∧
        st.last_timestamp = 0 ∧ st'.max_gap = st.max_gap ∧
        st'.last_timestamp = r.timestamp) ∧
    (∀ (line : List Char) (r : TradeRecord) (symbols : Store),
      accepted line = some r → find symbols r.symbol = none →
      ∃ st', find (process_line line symbols).2 r.symbol = some st' ∧ st'.max_gap = 0 ∧
        st'.last_timestamp = r.timestamp) := by
  refine ⟨update_stats_last_timestamp, ?_, ?_⟩
  · intro lines line s r0 r hlast h0 ha hs
    obtain ⟨init, hinit⟩ := List.getLast?_eq_some_iff.1 hlast
    have hst : find (process_lines lines []) s = some (fold_stats (init ++ [r0]) {}) := by
      rw [find_process_lines, hinit]
      cases init <;> simp [stats_after, find]
    have hzero : (fold_stats (init ++ [r0]) {}).last_timestamp = 0 := by
      rw [fold_stats_concat, update_stats_last_timestamp, h0]
    refine ⟨_, update_stats r.timestamp r.quantity r.price (fold_stats (init ++ [r0]) {}),
      hst, ?_, hzero, update_stats_after_zero _ _ _ _ hzero, rfl⟩
    rw [process_lines_concat, process_line_accepted line r _ ha]
    subst hs
    rw [find_apply_record_same, hst]
    rfl
  · intro line r symbols ha hf
    refine ⟨⟨r.timestamp, 0, to_int64 r.quantity,
      to_int64 (to_int32 (r.quantity * r.price)), max 0 r.price⟩, ?_, rfl, rfl⟩
    rw [process_line_accepted line r symbols ha]
    exact find_apply_record_fresh symbols r hf

/-- C16, witness: after `5,A,1,1` and `0,A,1,1` the record of `9,A,1,1` leaves `max_gap`
unchanged. -/
theorem C16_zero_timestamp_witness :
    ∃ st st', find (process_lines ["5,A,1,1".toList, "0,A,1,1".toList] []) "A".toList =
        some st ∧
      find (process_lines (["5,A,1,1".toList, "0,A,1,1".toList] ++ ["9,A,1,1".toList]) [])
        "A".toList = some st' ∧
      st.last_timestamp = 0 ∧ st'.max_gap = st.max_gap ∧ st'.last_timestamp = 9 :=
  C16_zero_timestamp.2.1 ["5,A,1,1".toList, "0,A,1,1".toList] "9,A,1,1".toList "A".toList
    ⟨0, "A".toList, 1, 1⟩ ⟨9, "A".toList, 1, 1⟩ (by decide) (by decide) (by decide) (by decide)

/-- C17: the update of an accepted record leaves the entry of every other symbol as it
was; for every input and symbol the entry of the symbol after the whole input equals its
entry after the accepted lines of that symbol alone; and exchanging two adjacent accepted
lines of different symbols changes neither the entry of any symbol nor the sorted entries
nor what `main` writes. -/
theorem C17_symbols_independent :
    (∀ (line : List Char) (r : TradeRecord) (symbols : Store) (t : List Char),
      accepted line = some r → r.symbol ≠ t →
      find (process_line line symbols).2 t = find symbols t) ∧
    (∀ (lines : List (List Char)) (s : List Char),
      find (process_lines lines []) s = find (process_lines (lines_of lines s) []) s) ∧
    (∀ (pre post : List (List Char)) (l1 l2 : List Char) (r1 r2 : TradeRecord),
      accepted l1 = some r1 → accepted l2 = some r2 → r1.symbol ≠ r2.symbol →
      (∀ t, find (process_lines (pre ++ l1 :: l2 :: post) []) t =
        find (process_lines (pre ++ l2 :: l1 :: post) []) t) ∧
      sorted_symbols (process_lines (pre ++ l1 :: l2 :: post) []) =
        sorted_symbols (process_lines (pre ++ l2 :: l1 :: post) []) ∧
      main (pre ++ l1 :: l2 :: post) = main (pre ++ l2 :: l1 :: post)) := by
  refine ⟨?_, ?_, ?_⟩
  · intro line r symbols t ha hne
    rw [process_line_accepted line r symbols ha]
    exact find_modify_other symbols r.symbol t _ hne
  · intro lines s
    rw [find_process_lines, find_process_lines, records_of_lines_of]
  · intro pre post l1 l2 r1 r2 h1 h2 hne
    have hfind : ∀ t, find (process_lines (pre ++ l1 :: l2 :: post) []) t =
        find (process_lines (pre ++ l2 :: l1 :: post) []) t := by
      intro t
      rw [find_process_lines, find_process_lines, records_of_swap pre post l1 l2 r1 r2 h1 h2 hne]
    have hsort := sorted_symbols_congr _ _
      (nodup_keys_process_lines (pre ++ l1 :: l2 :: post) [] (by simp [keys]))
      (nodup_keys_process_lines (pre ++ l2 :: l1 :: post) [] (by simp [keys])) hfind
    refine ⟨hfind, hsort, ?_⟩
    unfold main
    rw [hsort]

/-- C17, witness: the inputs `1,B,1,1`, `2,A,2,3` and `2,A,2,3`, `1,B,1,1` give the same
report. -/
theorem C17_symbols_independent_witness :
    main ([] ++ "1,B,1,1".toList :: "2,A,2,3".toList :: []) =
        main ([] ++ "2,A,2,3".toList :: "1,B,1,1".toList :: []) ∧
    find (process_line "2,A,2,3".toList [("B".toList, ⟨1, 0, 1, 1, 1⟩)]).2 "B".toList =
      find [("B".toList, ⟨1, 0, 1, 1, 1⟩)] "B".toList :=
  ⟨(C17_symbols_independent.2.2 [] [] "1,B,1,1".toList "2,A,2,3".toList
      ⟨1, "B".toList, 1, 1⟩ ⟨2, "A".toList, 2, 3⟩ (by decide) (by decide) (by decide)).2.2,
   C17_symbols_independent.1 "2,A,2,3".toList ⟨2, "A".toList, 2, 3⟩
     [("B".toList, ⟨1, 0, 1, 1, 1⟩)] "B".toList (by decide) (by decide)⟩

/-- C18: the map reached by the line `1,A,1,1` has `weighted_sum` 1 for `A`; the accepted
line `2,A,65536,65536` then raises `total_volume` by the quantity 65536 but leaves
`weighted_sum` at 1, although quantity times price is 4294967296: the product of line 58
is formed in 32 bits. -/
theorem C18_weighted_sum_product :
    process_lines ["1,A,1,1".toList] [] = [("A".toList, ⟨1, 0, 1, 1, 1⟩)] ∧
    accepted "2,A,65536,65536".toList = some ⟨2, "A".toList, 65536, 65536⟩ ∧
    process_line "2,A,65536,65536".toList [("A".toList, ⟨1, 0, 1, 1, 1⟩)] =
      (Outcome.applied, [("A".toList, ⟨2, 1, 65537, 1, 65536⟩)]) ∧
    (1 : Int) + 65536 * 65536 = 4294967297 := by
  decide

/-- C19: for a symbol with at least one accepted record, all quantities strictly positive,
every product quantity times price within 32 bits and both sums within 64 bits, the average
price of the symbol exists, lies between the smallest and the largest price of the records
of the symbol, and is at most the `max_price` of the entry; the row `main` writes for the
symbol carries this average and this `max_price`. -/
theorem C19_avg_between_prices (lines : List (List Char)) (s : List Char)
    (hne : records_of lines s ≠ [])
    (hpos : ∀ r ∈ records_of lines s, 0 < r.quantity)
    (hprod : ∀ r ∈ records_of lines s,
      -(2 ^ 31) ≤ r.quantity * r.price ∧ r.quantity * r.price < 2 ^ 31)
    (hq : sum_quantity (records_of lines s) < 2 ^ 63)
    (hw : -(2 ^ 63) ≤ sum_product (records_of lines s) ∧
      sum_product (records_of lines s) < 2 ^ 63) :
    ∃ st avg, find (process_lines lines []) s = some st ∧ avg_price st = some avg ∧
      avg = Int.tdiv (sum_product (records_of lines s)) (sum_quantity (records_of lines s)) ∧
      (∃ rmin ∈ records_of lines s, ∃ rmax ∈ records_of lines s,
        (∀ r ∈ records_of lines s, rmin.price ≤ r.price ∧ r.price ≤ rmax.price) ∧
        rmin.price ≤ avg ∧ avg ≤ rmax.price) ∧
      avg ≤ st.max_price ∧
      (∀ rows, main lines = some rows →
        ∃ row ∈ rows, row.symbol = s ∧ row.avg_price = avg ∧
          row.max_price = st.max_price) := by
  obtain ⟨rmin, hmin_mem, hmin⟩ := exists_min_price _ hne
  obtain ⟨rmax, hmax_mem, hmax⟩ := exists_max_price _ hne
  have hV := sum_quantity_pos _ hne hpos
  obtain ⟨b1, b2⟩ := sum_product_bounds (records_of lines s) rmin.price rmax.price hpos
    (fun r hr => ⟨hmin r hr, hmax r hr⟩)
  obtain ⟨t1, t2⟩ := tdiv_between _ _ _ _ hV b1 b2
  obtain ⟨l1, _, ha1, _⟩ := mem_records_of lines s rmin hmin_mem
  obtain ⟨l2, _, ha2, _⟩ := mem_records_of lines s rmax hmax_mem
  have r1 := (accepted_ranges l1 rmin ha1).2.2
  have r2 := (accepted_ranges l2 rmax ha2).2.2
  have hst : find (process_lines lines []) s = some (fold_stats (records_of lines s) {}) := by
    rw [find_process_lines]
    cases hrs : records_of lines s with
    | nil => exact absurd hrs hne
    | cons r rs => simp [stats_after, find]
  have havg : avg_price (fold_stats (records_of lines s) {}) =
      some (Int.tdiv (sum_product (records_of lines s))
        (sum_quantity (records_of lines s))) := by
    rw [fold_stats_avg_price _ hne hprod ⟨by omega, hq⟩ hw (by omega) (by omega),
      to_int32_of_range _ (by omega) (by omega)]
  have hmp := (fold_stats_max_price_le (records_of lines s) {}).2 rmax hmax_mem
  refine ⟨_, _, hst, havg, rfl, ⟨rmin, hmin_mem, rmax, hmax_mem,
    fun r hr => ⟨hmin r hr, hmax r hr⟩, t1, t2⟩, le_trans t2 hmp, ?_⟩
  intro rows hm
  obtain ⟨row, hrow, hwr⟩ := main_row_of_find lines rows s _ hm hst
  refine ⟨row, hrow, ?_⟩
  unfold write_row at hwr
  simp only [havg, Option.some.injEq] at hwr
  rw [← hwr]
  exact ⟨rfl, rfl, rfl⟩

/-- C19, witness: the three `AAPL` lines of the scenario; the average 52 lies between the
prices 50 and 60. -/
theorem C19_avg_between_prices_witness :
    ∃ st avg,
      find (process_lines
        ["100,AAPL,10,50".toList, "150,AAPL,5,55".toList, "300,AAPL,2,60".toList] [])
        "AAPL".toList = some st ∧
      avg_price st = some avg ∧
      avg = Int.tdiv
        (sum_product (records_of
          ["100,AAPL,10,50".toList, "150,AAPL,5,55".toList, "300,AAPL,2,60".toList]
          "AAPL".toList))
        (sum_quantity (records_of
          ["100,AAPL,10,50".toList, "150,AAPL,5,55".toList, "300,AAPL,2,60".toList]
          "AAPL".toList)) ∧
      (∃ rmin ∈ records_of
          ["100,AAPL,10,50".toList, "150,AAPL,5,55".toList, "300,AAPL,2,60".toList]
          "AAPL".toList,
        ∃ rmax ∈ records_of
          ["100,AAPL,10,50".toList, "150,AAPL,5,55".toList, "300,AAPL,2,60".toList]
          "AAPL".toList,
        (∀ r ∈ records_of
          ["100,AAPL,10,50".toList, "150,AAPL,5,55".toList, "300,AAPL,2,60".toList]
          "AAPL".toList, rmin.price ≤ r.price ∧ r.price ≤ rmax.price) ∧
        rmin.price ≤ avg ∧ avg ≤ rmax.price) ∧
      avg ≤ st.max_price ∧
      (∀ rows,
        main ["100,AAPL,10,50".toList, "150,AAPL,5,55".toList, "300,AAPL,2,60".toList] =
          some rows →
        ∃ row ∈ rows, row.symbol = "AAPL".toList ∧ row.avg_price = avg ∧
          row.max_price = st.max_price) :=
  C19_avg_between_prices
    ["100,AAPL,10,50".toList, "150,AAPL,5,55".toList, "300,AAPL,2,60".toList] "AAPL".toList
    (by decide) (by decide) (by decide) (by decide) (by decide)

/-- C20: for two orderings of the same lines, processed from the empty map, the same
symbols have an entry and the entry of every symbol has the same `total_volume`,
`weighted_sum` and `max_price`, hence the same average price.  The fields `last_timestamp`
and `max_gap` do depend on the order: the lines `1,A,1,1` and `5,A,1,1` give 5 and 4 in
this order, 1 and 2^64-4 in the other. -/
theorem C20_order_insensitive :
    (∀ (l1 l2 : List (List Char)), l1.Perm l2 → ∀ s : List Char,
      (s ∈ keys (process_lines l1 []) ↔ s ∈ keys (process_lines l2 [])) ∧
      (find (process_lines l1 []) s).map
          (fun st => (st.total_volume, st.weighted_sum, st.max_price)) =
        (find (process_lines l2 []) s).map
          (fun st => (st.total_volume, st.weighted_sum, st.max_price)) ∧
      (find (process_lines l1 []) s).map avg_price =
        (find (process_lines l2 []) s).map avg_price) ∧
    process_lines ["1,A,1,1".toList, "5,A,1,1".toList] [] =
      [("A".toList, ⟨5, 4, 2, 2, 1⟩)] ∧
    process_lines ["5,A,1,1".toList, "1,A,1,1".toList] [] =
      [("A".toList, ⟨1, 18446744073709551612, 2, 2, 1⟩)] := by
  refine ⟨?_, by decide, by decide⟩
  intro l1 l2 hp s
  have hrec := records_of_perm l1 l2 hp s
  have hkeys : s ∈ keys (process_lines l1 []) ↔ s ∈ keys (process_lines l2 []) := by
    rw [mem_keys_process_lines, mem_keys_process_lines]
    constructor
    · rintro ⟨line, hl, r, ha, hs⟩
      exact ⟨line, hp.mem_iff.1 hl, r, ha, hs⟩
    · rintro ⟨line, hl, r, ha, hs⟩
      exact ⟨line, hp.mem_iff.2 hl, r, ha, hs⟩
  refine ⟨hkeys, ?_⟩
  rw [find_process_lines, find_process_lines]
  cases h1 : records_of l1 s with
  | nil =>
    rw [h1] at hrec
    rw [hrec.nil_eq]
    exact ⟨rfl, rfl⟩
  | cons r rs =>
    rw [h1] at hrec
    cases h2 : records_of l2 s with
    | nil =>
      rw [h2] at hrec
      exact absurd hrec.eq_nil (by simp)
    | cons r' rs' =>
      rw [h2] at hrec
      obtain ⟨e1, e2, e3⟩ := fold_stats_perm _ _ hrec
      simp only [stats_after, find, Option.getD_none, Option.map_some', Option.some.injEq,
        Prod.mk.injEq]
      refine ⟨⟨e1, e2, e3⟩, ?_⟩
      unfold avg_price
      rw [e1, e2]

/-- C20, witness: the two lines `1,A,2,3` and `5,A,4,7` in both orders. -/
theorem C20_order_insensitive_witness :
    (find (process_lines ["1,A,2,3".toList, "5,A,4,7".toList] []) "A".toList).map
        (fun st => (st.total_volume, st.weighted_sum, st.max_price)) =
      (find (process_lines ["5,A,4,7".toList, "1,A,2,3".toList] []) "A".toList).map
        (fun st => (st.total_volume, st.weighted_sum, st.max_price)) :=
  (C20_order_insensitive.1 ["1,A,2,3".toList, "5,A,4,7".toList]
    ["5,A,4,7".toList, "1,A,2,3".toList]
    (List.Perm.swap "5,A,4,7".toList "1,A,2,3".toList []) "A".toList).2.1

end Exercise
